import Mathlib

/-!
PhyloNetworkViewer: the tree model, the Newick reader and the layout

A shallow embedding of `src/phylonetworkviewer.js`.

* JavaScript numbers are kept as exact rationals.  The code only compares
  branch lengths (`Math.max`) and halves the height, so no rounding enters
  the results that are stated below.
* A property that holds a number is a `Val`: `undefined`, `NaN` or a finite
  number.  A name is an `Option String`, `none` being `undefined`.
* While the parser runs, nodes are mutable objects that several places refer
  to at once, so the parser works on a heap of objects addressed by index.
  The finished object graph is unfolded into the immutable `Node` tree on
  which `computeSize`, `computeDepth` and the layout are read.
* The `switch` of `parse` declares `parent` and `child` in several cases of
  one block.  That is an early `SyntaxError`: the file as shipped does not
  load, and no call of `parseNewick` returns.  `loadFile` and
  `callParseNewick` model the file as shipped.  `step`, `parse` and
  `parseNewick` model the function body with every case of the `switch` read
  in a block of its own, the reading under which the parser runs at all.
  The classes and the tokenizer have no such declaration.
-/

set_option autoImplicit false

namespace PhyloNetworkViewer

/-! ## Values -/

/-- A JavaScript value as a branch length can hold it: `undefined`, `NaN` or
a finite number. -/
inductive Val where
  | undefined
  | nan
  | num (q : ℚ)
  deriving DecidableEq

/-! ## Node -/

/-- The class `Node`: `name`, `distanceToParent` and the ordered list
`descendents`.  The constructor leaves `descendents` empty; a missing
constructor argument is `undefined`. -/
inductive Node where
  | mk (name : Option String) (distanceToParent : Val) (descendents : List Node)

namespace Node

/-- Field `name`. -/
def name : Node → Option String
  | mk n _ _ => n

/-- Field `distanceToParent`. -/
def distanceToParent : Node → Val
  | mk _ d _ => d

/-- Field `descendents`. -/
def descendents : Node → List Node
  | mk _ _ ds => ds

mutual
/-- Method `computeSize`: `size` starts at 1 and every descendent adds its own
`computeSize()`. -/
def computeSize : Node → Nat
  | mk _ _ ds => computeSizeLoop ds 1
/-- The `for` loop of `computeSize`, `size` being the running total. -/
def computeSizeLoop : List Node → Nat → Nat
  | [], size => size
  | d :: ds, size => computeSizeLoop ds (size + computeSize d)
end

end Node

/-- The function `Math.max` on two arguments: `undefined` converts to `NaN`,
and `NaN` in either argument gives `NaN`. -/
def mathMax : Val → Val → Val
  | Val.num a, Val.num b => Val.num (max a b)
  | _, _ => Val.nan

namespace Node

mutual
/-- Method `computeDepth`: `depth` starts at the node's own
`distanceToParent` and is replaced by `Math.max(depth, d.computeDepth())`
for every descendent `d`. -/
def computeDepth : Node → Val
  | mk _ dist ds => computeDepthLoop ds dist
/-- The `for` loop of `computeDepth`, `depth` being the running maximum. -/
def computeDepthLoop : List Node → Val → Val
  | [], depth => depth
  | d :: ds, depth => computeDepthLoop ds (mathMax depth (computeDepth d))
end

end Node

/-! ## Maps keyed by name -/

/-- A JavaScript `Map` whose keys are node names (`undefined` is a legal
key): the entries in insertion order. -/
abbrev NameMap (α : Type) := List (Option String × α)

namespace NameMap

/-- The call `Map.prototype.set`: the value of an existing key is replaced
in place, a new key is appended. -/
def set {α : Type} : NameMap α → Option String → α → NameMap α
  | [], k, v => [(k, v)]
  | (k0, v0) :: m, k, v => if k0 = k then (k, v) :: m else (k0, v0) :: set m k v

/-- The call `Map.prototype.get`; `none` is `undefined`. -/
def get {α : Type} : NameMap α → Option String → Option α
  | [], _ => none
  | (k0, v0) :: m, k => if k0 = k then some v0 else get m k

end NameMap

/-! ## PhylogeneticNetwork -/

/-- The class `PhylogeneticNetwork`: the root (`undefined` when the parser
hands over an empty stack) and the map `nodes` from name to node. -/
structure PhylogeneticNetwork where
  root : Option Node
  nodes : NameMap Node

namespace PhylogeneticNetwork

/-- The constructor: stores the root and creates an empty `nodes` map. -/
def new (root : Option Node) : PhylogeneticNetwork :=
  ⟨root, []⟩

/-- Method `addNode`: `this.nodes.set(node.name, node)`. -/
def addNode (net : PhylogeneticNetwork) (node : Node) : PhylogeneticNetwork :=
  ⟨net.root, NameMap.set net.nodes node.name node⟩

end PhylogeneticNetwork

/-! ## Errors -/

/-- The ways a call can end without a value.  `typeError` is the JavaScript
`TypeError` raised by reading or writing a property of `undefined`, and
`syntaxError` the early `SyntaxError` of a source text that declares a name
twice in one block; the code has no `throw` of its own.  `cyclic` is not a
JavaScript outcome: it reports that the object graph left by the parser could
not be unfolded into a tree. -/
inductive JSError where
  | typeError
  | syntaxError
  | cyclic
  deriving DecidableEq

/-- The `name` of the error object; `cyclic`, which no run produces, has
none. -/
def JSError.name : JSError → String
  | JSError.typeError => "TypeError"
  | JSError.syntaxError => "SyntaxError"
  | JSError.cyclic => ""

/-! ## NetworkDiagram -/

/-- A coordinate object with the fields `x` and `y`. -/
structure Position where
  x : ℚ
  y : ℚ
  deriving DecidableEq

/-- The class `NetworkDiagram`, without the colour and label maps that the
layout never touches. -/
structure NetworkDiagram where
  width : ℚ
  height : ℚ
  nodePositions : NameMap Position

/-- Division of a number by a value.  A zero, `undefined` or `NaN` divisor
has no finite quotient (JavaScript gives an infinity or `NaN`); the model
returns `NaN` there, and no caller reads the quotient. -/
def Val.divInto (a : ℚ) : Val → Val
  | Val.num b => if b = 0 then Val.nan else Val.num (a / b)
  | _ => Val.nan

namespace NetworkDiagram

/-- The constructor: 800 by 600 and empty maps. -/
def new : NetworkDiagram :=
  ⟨800, 600, []⟩

/-- Method `computePositionsHelper`: stores the position of `node` under its
name.  For a node with descendents the code goes on to compute `subtreeSize`
and `xOffset` and ends there, so these two are bound and dropped. -/
def computePositionsHelper (d : NetworkDiagram) (node : Node) (x y : ℚ)
    (xScale _yScale : Val) : NetworkDiagram :=
  let d1 : NetworkDiagram := ⟨d.width, d.height, NameMap.set d.nodePositions node.name ⟨x, y⟩⟩
  if node.descendents.length > 0 then
    let subtreeSize := node.computeSize
    let _xOffset : Val :=
      match xScale with
      | Val.num s => Val.num (subtreeSize * s / 2)
      | _ => Val.nan
    d1
  else
    d1

/-- Method `computePositions`.  Reading `root.computeSize()` on an
`undefined` root raises a `TypeError`. -/
def computePositions (d : NetworkDiagram) (network : PhylogeneticNetwork) :
    Except JSError NetworkDiagram :=
  match network.root with
  | none => Except.error JSError.typeError
  | some root =>
    let rootSize := root.computeSize
    let xScale := Val.divInto d.width (Val.num rootSize)
    let yScale := Val.divInto d.height root.computeDepth
    let yCenter := d.height / 2
    let xCenter := 0
    Except.ok (computePositionsHelper d root xCenter yCenter xScale yScale)

end NetworkDiagram

/-! ## The tokenizer of parseNewick -/

/-- The `type` of a token: name, length, open, close, comma. -/
inductive TokenType where
  | name
  | length
  | opening
  | close
  | comma
  deriving DecidableEq

/-- A token object with its `type` and `value`. -/
structure Token where
  type : TokenType
  value : String
  deriving DecidableEq

/-- The class `\w` of the pattern: an ASCII letter, a digit or the
underscore. -/
def isWordChar (c : Char) : Bool :=
  c.isAlphanum || c == '_'

/-- The result of one `pattern.exec`: the five capture groups, `none` for a
group that did not take part in the match. -/
structure RegexMatch where
  g1 : Option String
  g2 : Option String
  g3 : Option String
  g4 : Option String
  g5 : Option String
  deriving DecidableEq

/-- The optional group `(?::(\d+(?:\.\d+)?))?` tried at the front of the
input: the captured number and the input after it, or `none` when the group
matches nothing.  Each quantifier is greedy and nothing follows the group,
so the first alternative the regex engine finds is the longest one. -/
def matchLength : List Char → Option (List Char × List Char)
  | ':' :: r =>
    let d1 := r.takeWhile Char.isDigit
    if d1 = [] then none
    else
      match r.dropWhile Char.isDigit with
      | '.' :: r2 =>
        let d2 := r2.takeWhile Char.isDigit
        if d2 = [] then some (d1, '.' :: r2)
        else some (d1 ++ '.' :: d2, r2.dropWhile Char.isDigit)
      | r1 => some (d1, r1)
  | _ => none

/-- The pattern `(\w+)(?::(\d+(?:\.\d+)?))?|(\()|(\))|(\,)` tried at the front
of the input: the groups and the input after the match. -/
def matchAt : List Char → Option (RegexMatch × List Char)
  | [] => none
  | c :: cs =>
    if isWordChar c then
      let w := (c :: cs).takeWhile isWordChar
      let r := (c :: cs).dropWhile isWordChar
      match matchLength r with
      | some (len, r2) => some (⟨some (String.mk w), some (String.mk len), none, none, none⟩, r2)
      | none => some (⟨some (String.mk w), none, none, none, none⟩, r)
    else if c = '(' then some (⟨none, none, some "(", none, none⟩, cs)
    else if c = ')' then some (⟨none, none, none, some ")", none⟩, cs)
    else if c = ',' then some (⟨none, none, none, none, some ","⟩, cs)
    else none

/-- One call of `pattern.exec(newick)` with the global flag: the first
position at or after `lastIndex` where the pattern matches; characters
before it are passed over.  The argument is the input from `lastIndex` on,
the result carries the input after the match; `none` is `null`. -/
def exec : List Char → Option (RegexMatch × List Char)
  | [] => none
  | c :: cs =>
    match matchAt (c :: cs) with
    | some m => some m
    | none => exec cs

/-- The test `if (match[i])`: a group that took part and is not the empty
string. -/
def truthy : Option String → Bool
  | some s => !s.data.isEmpty
  | none => false

/-- The statement `if (match[i]) tokens.push(...)`. -/
def pushIf (tokens : List Token) (type : TokenType) (g : Option String) : List Token :=
  match g with
  | some v => if truthy g then tokens ++ [⟨type, v⟩] else tokens
  | none => tokens

/-- The body of the tokenizer loop: the five conditional pushes. -/
def pushTokens (tokens : List Token) (m : RegexMatch) : List Token :=
  let t1 := pushIf tokens TokenType.name m.g1
  let t2 := pushIf t1 TokenType.length m.g2
  let t3 := pushIf t2 TokenType.opening m.g3
  let t4 := pushIf t3 TokenType.close m.g4
  pushIf t4 TokenType.comma m.g5

/-- The loop `while ((match = pattern.exec(newick)) !== null)`, bounded by
`fuel` rounds. -/
def tokenizeLoop : Nat → List Char → List Token → List Token
  | 0, _, tokens => tokens
  | fuel + 1, cs, tokens =>
    match exec cs with
    | none => tokens
    | some (m, rest) => tokenizeLoop fuel rest (pushTokens tokens m)

/-- The tokenizer of `parseNewick`.  Every match takes at least one
character, so as many rounds as the input has characters are enough. -/
def tokenize (newick : String) : List Token :=
  tokenizeLoop newick.data.length newick.data []

/-! ## The parser of parseNewick -/

/-- A `Node` object while the parser runs: its descendents are references
into the heap, and `parent` is the back-reference the parser sets. -/
structure Obj where
  name : Option String
  distanceToParent : Val
  descendents : List Nat
  parent : Option Nat
  deriving DecidableEq

/-- The expression `new Node(name)`; `new Node()` passes `none`.  The parser
never passes a distance. -/
def Obj.new (name : Option String) : Obj :=
  ⟨name, Val.undefined, [], none⟩

/-- The heap: object `r` is the entry at index `r`. -/
abbrev Heap := List Obj

/-- Assignment to the object at reference `r`. -/
def Heap.update : Heap → Nat → (Obj → Obj) → Heap
  | [], _, _ => []
  | o :: h, 0, f => f o :: h
  | o :: h, r + 1, f => o :: Heap.update h r f

/-- The property `name` of the object at `r`. -/
def Heap.nameOf (h : Heap) (r : Nat) : Option String :=
  match h[r]? with
  | some o => o.name
  | none => none

/-- The function `parseFloat` on the strings the tokenizer hands over
(digits, then optionally a point and digits): the number the literal
denotes.  A string that does not start with a digit gives `NaN`. -/
def parseFloat (s : String) : Val :=
  let digits (ds : List Char) : Nat := ds.foldl (fun n c => 10 * n + (c.toNat - 48)) 0
  let d1 := s.data.takeWhile Char.isDigit
  if d1 = [] then Val.nan
  else
    match s.data.dropWhile Char.isDigit with
    | '.' :: r2 =>
      let d2 := r2.takeWhile Char.isDigit
      Val.num (digits d1 + (digits d2 : ℚ) / 10 ^ d2.length)
    | _ => Val.num (digits d1)

/-- The state of `parse`: the heap and the stack, top of the stack first
(so `push` is cons and `stack[0]` is the last entry). -/
structure ParseState where
  heap : Heap
  stack : List Nat

/-- The loop `while ((child = stack.pop()) && child.name)` of the close
case: the popped named nodes in the order popped, and the stack left.  The
loop ends on an empty stack, or on a node without a name, which is popped
and dropped. -/
def popNamed (h : Heap) : List Nat → List Nat × List Nat
  | [] => ([], [])
  | c :: rest =>
    if truthy (Heap.nameOf h c) then
      let (children, stack) := popNamed h rest
      (c :: children, stack)
    else ([], rest)

/-- The statement `child.parent = parent` for each of the children. -/
def setParents (h : Heap) (children : List Nat) (parent : Nat) : Heap :=
  children.foldl (fun h c => Heap.update h c (fun o => { o with parent := some parent })) h

/-- One round of the `for` loop of `parse`: the `switch` on the token type,
each case read in a block of its own with its own `const` and `let`
declarations.  As shipped the cases share one block, which `loadFile`
rejects; the cases `name` and `length` declare nothing. -/
def step (s : ParseState) (token : Token) : Except JSError ParseState :=
  match token.type with
  | TokenType.name =>
    Except.ok ⟨s.heap ++ [Obj.new (some token.value)], s.heap.length :: s.stack⟩
  | TokenType.length =>
    match s.stack with
    | [] => Except.error JSError.typeError
    | top :: _ =>
      Except.ok ⟨Heap.update s.heap top
        (fun o => { o with distanceToParent := parseFloat token.value }), s.stack⟩
  | TokenType.opening =>
    let parent := s.heap.length
    match s.stack with
    | [] => Except.error JSError.typeError
    | child :: stack =>
      let h1 := s.heap ++ [{ Obj.new none with descendents := [child] }]
      let h2 := Heap.update h1 child (fun o => { o with parent := some parent })
      Except.ok ⟨h2, parent :: stack⟩
  | TokenType.comma =>
    let sibling := s.heap.length
    match s.stack with
    | [] => Except.error JSError.typeError
    | parent :: stack =>
      let h1 := s.heap ++ [{ Obj.new none with parent := some parent }]
      let h2 := Heap.update h1 parent
        (fun o => { o with descendents := o.descendents ++ [sibling] })
      Except.ok ⟨h2, sibling :: parent :: stack⟩
  | TokenType.close =>
    let (children, stack) := popNamed s.heap s.stack
    let parent := s.heap.length
    let h1 := s.heap ++ [{ Obj.new none with descendents := children }]
    let h2 := setParents h1 children parent
    Except.ok ⟨h2, parent :: parent :: stack⟩

/-- The `for` loop of `parse` from state `s`; an exception ends it. -/
def parseLoop : ParseState → List Token → Except JSError ParseState
  | s, [] => Except.ok s
  | s, token :: tokens =>
    match step s token with
    | Except.ok s1 => parseLoop s1 tokens
    | Except.error e => Except.error e

/-- The function `parse`: the final heap and `stack[0]`, which is
`undefined` when the stack is empty. -/
def parse (tokens : List Token) : Except JSError (Heap × Option Nat) :=
  match parseLoop ⟨[], []⟩ tokens with
  | Except.ok s => Except.ok (s.heap, s.stack.getLast?)
  | Except.error e => Except.error e

/-- All entries of a list of optional values, when none is missing. -/
def allSome {α : Type} : List (Option α) → Option (List α)
  | [] => some []
  | none :: _ => none
  | some a :: l =>
    match allSome l with
    | some as => some (a :: as)
    | none => none

/-- The object graph below reference `r`, unfolded into a `Node` tree; a
node referred to twice appears twice.  The unfolding goes `fuel` levels deep
and gives `none` when that is not enough. -/
def Heap.toNode (h : Heap) : Nat → Nat → Option Node
  | 0, _ => none
  | fuel + 1, r =>
    match h[r]? with
    | none => none
    | some o =>
      match allSome (o.descendents.map (Heap.toNode h fuel)) with
      | some ds => some (Node.mk o.name o.distanceToParent ds)
      | none => none

/-- The body of the function `parseNewick`: tokenize, parse, and wrap the
root in a new `PhylogeneticNetwork`; the `switch` of `parse` is read as in
`step`.  What a call gives on the file as shipped is `callParseNewick`. -/
def parseNewick (newick : String) : Except JSError PhylogeneticNetwork :=
  let tokens := tokenize newick
  match parse tokens with
  | Except.error e => Except.error e
  | Except.ok (_, none) => Except.ok (PhylogeneticNetwork.new none)
  | Except.ok (h, some r) =>
    match Heap.toNode h h.length r with
    | some root => Except.ok (PhylogeneticNetwork.new (some root))
    | none => Except.error JSError.cyclic

/-! ## The file as shipped -/

/-- The `const` and `let` declarations that stand directly in the case block
of the `switch` in `parse`, in source order: the declared name and its line.
The `const child` of the `for` statement in the close case has a scope of its
own and is not among them. -/
def switchDeclarations : List (String × Nat) :=
  [("parent", 187), ("child", 188), ("sibling", 196), ("parent", 197), ("children", 205),
    ("child", 206), ("parent", 210)]

/-- The first name of a block that is declared again later in the block. -/
def firstRedeclared : List String → Option String
  | [] => none
  | x :: xs => if xs.contains x then some x else firstRedeclared xs

/-- Loading the file: a block that declares a name twice with `const` or
`let` is an early `SyntaxError`, raised before any statement runs. -/
def loadFile : Except JSError Unit :=
  match firstRedeclared (switchDeclarations.map Prod.fst) with
  | some _ => Except.error JSError.syntaxError
  | none => Except.ok ()

/-- Loading the file as shipped and calling `parseNewick(newick)`: when the
load fails nothing is defined and the call returns nothing, the outcome being
the error of the load. -/
def callParseNewick (newick : String) : Except JSError PhylogeneticNetwork :=
  match loadFile with
  | Except.error e => Except.error e
  | Except.ok _ => parseNewick newick

/-! ## Vocabulary of the statements -/

/-- Whether a value is a finite number. -/
def Val.isNum : Val → Bool
  | Val.num _ => true
  | _ => false

/-- The number a value holds, 0 for `undefined` and `NaN`. -/
def Val.toNum : Val → ℚ
  | Val.num q => q
  | _ => 0

namespace Node

mutual
/-- Following the spec's words ("the Nodes in the subtree rooted at `node`,
inclusive"): the node itself, then the subtrees of its descendents in
order. -/
def subtree : Node → List Node
  | mk n d ds => mk n d ds :: subtreeList ds
/-- The subtrees of a list of nodes, one after the other. -/
def subtreeList : List Node → List Node
  | [] => []
  | d :: ds => subtree d ++ subtreeList ds
end

/-- Every node of the subtree has a finite number as `distanceToParent`. -/
def Numeric (n : Node) : Prop :=
  ∀ m ∈ n.subtree, m.distanceToParent.isNum = true

instance (n : Node) : Decidable n.Numeric := by
  unfold Numeric; infer_instance

mutual
/-- Following the spec's words, not the code: `subtree_depth` is
`max(c.distance_to_parent + subtree_depth(c) for c in node.children)`, or 0
if the node has no children. -/
def specDepth : Node → ℚ
  | mk _ _ ds => specDepthMax ds
/-- The maximum in `specDepth`, over a list of children; 0 for no child. -/
def specDepthMax : List Node → ℚ
  | [] => 0
  | [mk n d cs] => d.toNum + specDepth (mk n d cs)
  | mk n d cs :: c :: ds => max (d.toNum + specDepth (mk n d cs)) (specDepthMax (c :: ds))
end

end Node

/-- Following the spec's words: the parentheses of the input are balanced
when every `)` closes an earlier `(` and no `(` stays open; `depth` counts
the parentheses open so far. -/
def parenBalancedFrom : Nat → List Char → Bool
  | depth, [] => depth == 0
  | depth, c :: cs =>
    if c = '(' then parenBalancedFrom (depth + 1) cs
    else if c = ')' then
      match depth with
      | 0 => false
      | d + 1 => parenBalancedFrom d cs
    else parenBalancedFrom depth cs

/-- Balanced parentheses of a whole input. -/
def parenBalanced (newick : String) : Bool :=
  parenBalancedFrom 0 newick.data

/-- A ranking of the heap: every object's rank is below the heap size, and
every descendent is an object of the heap with a smaller rank. -/
def Heap.Ranked (h : Heap) (rank : Nat → Nat) : Prop :=
  ∀ r o, h[r]? = some o →
    rank r < h.length ∧ ∀ c ∈ o.descendents, c < h.length ∧ rank c < rank r

/-- The parser invariant: the stack refers to objects of the heap, and the
heap has a ranking, so that following descendents never comes back. -/
def ParseState.WF (s : ParseState) : Prop :=
  (∀ r ∈ s.stack, r < s.heap.length) ∧ ∃ rank, Heap.Ranked s.heap rank

/-- A character that no part of the pattern can match: not of the class
`\w`, and none of the parentheses, the comma, the colon and the point. -/
def neverMatched (c : Char) : Bool :=
  !isWordChar c && c != '(' && c != ')' && c != ',' && c != ':' && c != '.'

/-- Whether every length token of the list comes directly after a name
token; `afterName` tells whether the token before the list is a name. -/
def lengthsFollowNames : Bool → List Token → Bool
  | _, [] => true
  | afterName, t :: ts =>
    (t.type != TokenType.length || afterName) &&
      lengthsFollowNames (t.type == TokenType.name) ts

/-- The value of a length token at the head of the list, if there is one. -/
def lengthWritten : List Token → Option String
  | [] => none
  | t :: _ => if t.type = TokenType.length then some t.value else none

/-- The nodes that the tokens stand for, in the order of the tokens, each
with its name and the branch length written for it in the input: a name
token stands for a node of that name, with the value of the length token
right after it if there is one; an open, comma or close token stands for an
unnamed node, for which no length is written. -/
def createdNodes : List Token → List (Option String × Option String)
  | [] => []
  | t :: ts =>
    match t.type with
    | TokenType.name => (some t.value, lengthWritten ts) :: createdNodes ts
    | TokenType.length => createdNodes ts
    | _ => (none, none) :: createdNodes ts

/-- The `distanceToParent` of a node for which the length `w` was written,
`none` being no length. -/
def writtenDistance : Option String → Val
  | none => Val.undefined
  | some v => parseFloat v

/-! # Theorems -/

/-! ## The tokenizer -/


theorem pushIf_acc (acc : List Token) (t : TokenType) (g : Option String) :
    pushIf acc t g = acc ++ pushIf [] t g := by
  cases g with
  | none => simp [pushIf]
  | some v => simp only [pushIf]; split <;> simp

theorem pushTokens_acc (acc : List Token) (m : RegexMatch) :
    pushTokens acc m = acc ++ pushTokens [] m := by
  simp only [pushTokens]
  rw [pushIf_acc _ TokenType.comma, pushIf_acc _ TokenType.close, pushIf_acc _ TokenType.opening,
    pushIf_acc _ TokenType.length, pushIf_acc acc TokenType.name]
  conv_rhs => rw [pushIf_acc _ TokenType.comma, pushIf_acc _ TokenType.close,
    pushIf_acc _ TokenType.opening, pushIf_acc _ TokenType.length]
  simp [List.append_assoc]

theorem tokenizeLoop_acc (fuel : Nat) (cs : List Char) (acc : List Token) :
    tokenizeLoop fuel cs acc = acc ++ tokenizeLoop fuel cs [] := by
  induction fuel generalizing cs acc with
  | zero => simp [tokenizeLoop]
  | succ fuel ih =>
    simp only [tokenizeLoop]
    cases exec cs with
    | none => simp
    | some p =>
      obtain ⟨m, rest⟩ := p
      simp only
      rw [ih rest (pushTokens acc m), ih rest (pushTokens [] m), pushTokens_acc acc m,
        List.append_assoc]

theorem exec_open (cs : List Char) :
    exec ('(' :: cs) = some (⟨none, none, some "(", none, none⟩, cs) := by
  rw [exec, matchAt, if_neg (by decide), if_pos rfl]

theorem tokenize_leading_open (rest : String) :
    ∃ ts, tokenize ("(" ++ rest) = ⟨TokenType.opening, "("⟩ :: ts := by
  refine ⟨tokenizeLoop rest.data.length rest.data [], ?_⟩
  rw [tokenize, String.data_append]
  show tokenizeLoop (rest.data.length + 1) ('(' :: rest.data) [] = _
  rw [tokenizeLoop, exec_open]
  simp only []
  rw [tokenizeLoop_acc]
  rfl

theorem parse_leading_open (v : String) (ts : List Token) :
    parse (⟨TokenType.opening, v⟩ :: ts) = Except.error JSError.typeError := by
  simp [parse, parseLoop, step]

theorem parseNewick_leading_open (rest : String) :
    parseNewick ("(" ++ rest) = Except.error JSError.typeError := by
  obtain ⟨ts, h⟩ := tokenize_leading_open rest
  simp [parseNewick, h, parse_leading_open]


theorem matchLength_semicolon : matchLength [';'] = none := by
  simp [matchLength]

theorem tokenize_name (n : String) (hne : n.data ≠ []) (hw : ∀ c ∈ n.data, isWordChar c = true) :
    tokenize (n ++ ";") = [⟨TokenType.name, n⟩] := by
  obtain ⟨cs⟩ := n
  simp only at hne hw
  cases cs with
  | nil => exact absurd rfl hne
  | cons c cs =>
    have hc : isWordChar c = true := hw c (by simp)
    have hd : (String.mk (c :: cs) ++ ";").data = (c :: cs) ++ [';'] := by simp
    have h1 : List.takeWhile isWordChar ((c :: cs) ++ [';']) = c :: cs := by
      rw [List.takeWhile_append_of_pos hw]; simp [isWordChar]
    have h2 : List.dropWhile isWordChar ((c :: cs) ++ [';']) = [';'] := by
      rw [List.dropWhile_append_of_pos hw]; simp [isWordChar]
    have h3 : exec ((c :: cs) ++ [';']) =
        some (⟨some (String.mk (c :: cs)), none, none, none, none⟩, [';']) := by
      have : (c :: cs) ++ [';'] = c :: (cs ++ [';']) := rfl
      rw [this, exec, matchAt, if_pos hc, ← this]
      simp only [h1, h2, matchLength_semicolon]
    have h4 : exec [';'] = none := by decide
    simp only [tokenize, hd, List.length_append, List.length_cons, List.length_singleton,
      List.length_nil, tokenizeLoop, h3, h4]
    simp [pushTokens, pushIf, truthy, tokenizeLoop, h4]


theorem matchLength_length {cs len rest : List Char} (h : matchLength cs = some (len, rest)) :
    rest.length ≤ cs.length := by
  unfold matchLength at h
  split at h
  · rename_i r
    simp only at h
    split at h
    · cases h
    · have hdrop : (r.dropWhile Char.isDigit).length ≤ r.length :=
        (List.dropWhile_sublist _).length_le
      split at h
      · rename_i r2 heq
        rw [heq] at hdrop
        split at h
        · simp only [Option.some.injEq, Prod.mk.injEq] at h
          obtain ⟨_, rfl⟩ := h
          simp only [List.length_cons] at hdrop ⊢
          omega
        · simp only [Option.some.injEq, Prod.mk.injEq] at h
          obtain ⟨_, rfl⟩ := h
          have := (List.dropWhile_sublist (l := r2) Char.isDigit).length_le
          simp only [List.length_cons] at hdrop ⊢
          omega
      · simp only [Option.some.injEq, Prod.mk.injEq] at h
        obtain ⟨_, rfl⟩ := h
        simp only [List.length_cons]
        omega
  · cases h

theorem matchAt_length {cs rest : List Char} {m : RegexMatch}
    (h : matchAt cs = some (m, rest)) : rest.length < cs.length := by
  cases cs with
  | nil => simp [matchAt] at h
  | cons c cs =>
    simp only [matchAt] at h
    split at h
    · rename_i hc
      have hdrop : ((c :: cs).dropWhile isWordChar).length ≤ cs.length := by
        rw [List.dropWhile_cons_of_pos hc]
        exact (List.dropWhile_sublist _).length_le
      split at h
      · rename_i len r2 heq
        have := matchLength_length heq
        simp only [Option.some.injEq, Prod.mk.injEq] at h
        obtain ⟨_, rfl⟩ := h
        simp only [List.length_cons]
        omega
      · simp only [Option.some.injEq, Prod.mk.injEq] at h
        obtain ⟨_, rfl⟩ := h
        simp only [List.length_cons]
        omega
    · split at h
      · simp only [Option.some.injEq, Prod.mk.injEq] at h
        obtain ⟨_, rfl⟩ := h
        simp
      · split at h
        · simp only [Option.some.injEq, Prod.mk.injEq] at h
          obtain ⟨_, rfl⟩ := h
          simp
        · split at h
          · simp only [Option.some.injEq, Prod.mk.injEq] at h
            obtain ⟨_, rfl⟩ := h
            simp
          · cases h

/-- Every match takes at least one character. -/
theorem exec_length {cs rest : List Char} {m : RegexMatch}
    (h : exec cs = some (m, rest)) : rest.length < cs.length := by
  induction cs with
  | nil => simp [exec] at h
  | cons c cs ih =>
    simp only [exec] at h
    split at h
    · rename_i p heq
      simp only [Option.some.injEq] at h
      subst h
      exact matchAt_length heq
    · have := ih h
      simp only [List.length_cons]
      omega

/-- The tokenizer loop has ended once the fuel reaches the length of the
input: more fuel gives the same tokens. -/
theorem tokenizeLoop_fuel (fuel : Nat) :
    ∀ (cs : List Char) (acc : List Token), cs.length ≤ fuel →
      tokenizeLoop fuel cs acc = tokenizeLoop cs.length cs acc := by
  induction fuel using Nat.strong_induction_on with
  | _ fuel ih =>
    intro cs acc hle
    cases fuel with
    | zero =>
      have : cs.length = 0 := by omega
      rw [this]
    | succ fuel =>
      cases hcs : cs with
      | nil => simp [tokenizeLoop, exec]
      | cons c cs1 =>
        subst hcs
        simp only [tokenizeLoop, List.length_cons]
        cases hex : exec (c :: cs1) with
        | none => rfl
        | some p =>
          obtain ⟨m, rest⟩ := p
          have hlt := exec_length hex
          simp only [List.length_cons] at hlt hle
          simp only
          rw [ih fuel (by omega) rest _ (by omega), ih cs1.length (by omega) rest _ (by omega)]

/-! ## The parser invariant -/

theorem heap_length_update (h : Heap) (r : Nat) (f : Obj → Obj) :
    (Heap.update h r f).length = h.length := by
  induction h generalizing r with
  | nil => simp [Heap.update]
  | cons o h ih => cases r <;> simp [Heap.update, ih]

theorem heap_getElem_update (h : Heap) (r : Nat) (f : Obj → Obj) (i : Nat) :
    (Heap.update h r f)[i]? = if i = r then h[i]?.map f else h[i]? := by
  induction h generalizing r i with
  | nil => simp [Heap.update]
  | cons o h ih =>
    cases r with
    | zero => cases i <;> simp [Heap.update]
    | succ r => cases i <;> simp [Heap.update, ih]

/-- An assignment that leaves `descendents` alone keeps a ranking. -/
theorem ranked_update {h : Heap} {rank : Nat → Nat} (hr : Heap.Ranked h rank)
    (r : Nat) (f : Obj → Obj) (hf : ∀ o, (f o).descendents = o.descendents) :
    Heap.Ranked (Heap.update h r f) rank := by
  intro i o hi
  rw [heap_getElem_update] at hi
  rw [heap_length_update]
  split at hi
  · cases hget : h[i]? with
    | none => simp [hget] at hi
    | some o0 =>
      simp only [hget, Option.map_some', Option.some.injEq] at hi
      subst hi
      rw [hf]
      exact hr i o0 hget
  · exact hr i o hi

theorem setParents_length (h : Heap) (children : List Nat) (p : Nat) :
    (setParents h children p).length = h.length := by
  induction children generalizing h with
  | nil => simp [setParents]
  | cons c cs ih =>
    simp only [setParents, List.foldl_cons] at ih ⊢
    rw [ih, heap_length_update]

theorem ranked_setParents {h : Heap} {rank : Nat → Nat} (hr : Heap.Ranked h rank)
    (children : List Nat) (p : Nat) : Heap.Ranked (setParents h children p) rank := by
  induction children generalizing h with
  | nil => simpa [setParents] using hr
  | cons c cs ih =>
    simp only [setParents, List.foldl_cons] at ih ⊢
    exact ih (ranked_update hr c _ (fun _ => rfl))

theorem popNamed_subset (h : Heap) (stack : List Nat) :
    (∀ c ∈ (popNamed h stack).1, c ∈ stack) ∧ (∀ c ∈ (popNamed h stack).2, c ∈ stack) := by
  induction stack with
  | nil => simp [popNamed]
  | cons c rest ih =>
    simp only [popNamed]
    split
    · constructor
      · intro x hx
        simp only [List.mem_cons] at hx ⊢
        rcases hx with rfl | hx
        · exact Or.inl rfl
        · exact Or.inr (ih.1 x hx)
      · intro x hx
        exact List.mem_cons_of_mem _ (ih.2 x hx)
    · constructor
      · simp
      · intro x hx; exact List.mem_cons_of_mem _ hx

/-- Appending an object whose descendents are old objects keeps a ranking,
the new object getting the rank `h.length`. -/
theorem ranked_alloc {h : Heap} {rank : Nat → Nat} (hr : Heap.Ranked h rank)
    (o : Obj) (ho : ∀ c ∈ o.descendents, c < h.length) :
    Heap.Ranked (h ++ [o]) (fun r => if r < h.length then rank r else h.length) := by
  intro i oi hi
  rw [List.length_append, List.length_singleton]
  by_cases hlt : i < h.length
  · rw [List.getElem?_append_left hlt] at hi
    obtain ⟨h1, h2⟩ := hr i oi hi
    refine ⟨by simp only [hlt, if_true]; omega, ?_⟩
    intro c hc
    obtain ⟨h3, h4⟩ := h2 c hc
    simp only [hlt, h3, if_true]
    exact ⟨by omega, h4⟩
  · have hge : h.length ≤ i := Nat.le_of_not_lt hlt
    rw [List.getElem?_append_right hge] at hi
    have hi0 : i - h.length = 0 := by
      by_contra hne
      obtain ⟨k, hk⟩ := Nat.exists_eq_succ_of_ne_zero hne
      rw [hk] at hi
      simp at hi
    rw [hi0] at hi
    simp only [List.getElem?_cons_zero, Option.some.injEq] at hi
    subst hi
    refine ⟨by simp only [hlt, if_false]; omega, ?_⟩
    intro c hc
    have hcl := ho c hc
    simp only [hcl, hlt, if_true, if_false]
    have := (hr c (h[c]) (by simp [hcl])).1
    exact ⟨by omega, this⟩

theorem step_WF {s s1 : ParseState} {token : Token} (hs : s.WF)
    (h : step s token = Except.ok s1) : s1.WF := by
  obtain ⟨hstack, rank, hr⟩ := hs
  obtain ⟨ty, v⟩ := token
  cases ty with
  | name =>
    simp only [step, Except.ok.injEq] at h
    subst h
    refine ⟨?_, _, ranked_alloc hr (Obj.new (some v)) (by simp [Obj.new])⟩
    intro r hr1
    simp only [List.mem_cons, List.length_append, List.length_singleton] at hr1 ⊢
    rcases hr1 with rfl | hr1
    · omega
    · have := hstack r hr1; omega
  | length =>
    simp only [step] at h
    cases hst : s.stack with
    | nil => simp [hst] at h
    | cons top rest =>
      simp only [hst, Except.ok.injEq] at h
      subst h
      refine ⟨?_, rank, ranked_update hr top _ (fun _ => rfl)⟩
      intro r hr1
      simp only [heap_length_update]
      exact hstack r (by rw [hst]; exact hr1)
  | opening =>
    simp only [step] at h
    cases hst : s.stack with
    | nil => simp [hst] at h
    | cons child rest =>
      simp only [hst, Except.ok.injEq] at h
      subst h
      have hchild : child < s.heap.length := hstack child (by simp [hst])
      refine ⟨?_, _, ranked_update (ranked_alloc hr { Obj.new none with descendents := [child] }
        (by simpa using hchild)) child _ (fun _ => rfl)⟩
      intro r hr1
      simp only [List.mem_cons, heap_length_update, List.length_append,
        List.length_singleton] at hr1 ⊢
      rcases hr1 with rfl | hr1
      · omega
      · have := hstack r (by simp [hst, hr1]); omega
  | comma =>
    simp only [step] at h
    cases hst : s.stack with
    | nil => simp [hst] at h
    | cons parent rest =>
      simp only [hst, Except.ok.injEq] at h
      subst h
      have hparent : parent < s.heap.length := hstack parent (by simp [hst])
      refine ⟨?_, fun r => if r < s.heap.length then rank r + 1 else 0, ?_⟩
      · intro r hr1
        simp only [List.mem_cons, heap_length_update, List.length_append,
          List.length_singleton] at hr1 ⊢
        rcases hr1 with rfl | rfl | hr1
        · omega
        · omega
        · have := hstack r (by simp [hst, hr1]); omega
      · intro i oi hi
        rw [heap_getElem_update] at hi
        simp only [heap_length_update, List.length_append, List.length_singleton]
        by_cases hlt : i < s.heap.length
        · rw [List.getElem?_append_left hlt] at hi
          simp only [hlt, if_true]
          obtain ⟨h1, h2⟩ := hr i (s.heap[i]) (by simp [hlt])
          refine ⟨by omega, ?_⟩
          have hold : ∀ c ∈ (s.heap[i]).descendents,
              c < s.heap.length + 1 ∧
                (if c < s.heap.length then rank c + 1 else 0) < rank i + 1 := by
            intro c hc
            obtain ⟨h3, h4⟩ := h2 c hc
            simp only [h3, if_true]
            omega
          have hget : s.heap[i]? = some s.heap[i] := by simp [hlt]
          split at hi
          · simp only [hget, Option.map_some', Option.some.injEq] at hi
            subst hi
            intro c hc
            simp only [List.mem_append, List.mem_singleton] at hc
            rcases hc with hc | rfl
            · exact hold c hc
            · simp
          · rw [hget] at hi
            simp only [Option.some.injEq] at hi
            subst hi
            exact hold
        · have hge : s.heap.length ≤ i := Nat.le_of_not_lt hlt
          have hne : ¬ i = parent := by omega
          simp only [hne, if_false] at hi
          rw [List.getElem?_append_right hge] at hi
          have hi0 : i - s.heap.length = 0 := by
            by_contra hne0
            obtain ⟨k, hk⟩ := Nat.exists_eq_succ_of_ne_zero hne0
            rw [hk] at hi
            simp at hi
          rw [hi0] at hi
          simp only [List.getElem?_cons_zero, Option.some.injEq] at hi
          subst hi
          simp only [hlt, if_false]
          refine ⟨by omega, ?_⟩
          simp [Obj.new]
  | close =>
    simp only [step, Except.ok.injEq] at h
    subst h
    have hsub := popNamed_subset s.heap s.stack
    have hch : ∀ c ∈ (popNamed s.heap s.stack).1, c < s.heap.length :=
      fun c hc => hstack c (hsub.1 c hc)
    refine ⟨?_, _, ranked_setParents
      (ranked_alloc hr { Obj.new none with descendents := (popNamed s.heap s.stack).1 }
        (by simpa using hch)) _ _⟩
    intro r hr1
    simp only [List.mem_cons, setParents_length, List.length_append,
      List.length_singleton] at hr1 ⊢
    rcases hr1 with rfl | rfl | hr1
    · omega
    · omega
    · have := hstack r (hsub.2 r hr1); omega

theorem allSome_map_some {α β : Type} (f : α → Option β) (l : List α)
    (h : ∀ a ∈ l, ∃ b, f a = some b) : ∃ bs, allSome (l.map f) = some bs := by
  induction l with
  | nil => exact ⟨[], rfl⟩
  | cons a l ih =>
    obtain ⟨b, hb⟩ := h a (by simp)
    obtain ⟨bs, hbs⟩ := ih (fun x hx => h x (by simp [hx]))
    exact ⟨b :: bs, by simp [allSome, hb, hbs]⟩

/-- With a ranking, fuel above the rank of an object unfolds it. -/
theorem toNode_some {h : Heap} {rank : Nat → Nat} (hr : Heap.Ranked h rank) :
    ∀ (fuel r : Nat), r < h.length → rank r < fuel → ∃ n, Heap.toNode h fuel r = some n := by
  intro fuel
  induction fuel with
  | zero => intro r _ h0; omega
  | succ fuel ih =>
    intro r hlt hrank
    have hget : h[r]? = some h[r] := by simp [hlt]
    obtain ⟨_, hdesc⟩ := hr r _ hget
    obtain ⟨ds, hds⟩ := allSome_map_some (Heap.toNode h fuel) (h[r]).descendents
      (fun c hc => ih c (hdesc c hc).1 (by have := (hdesc c hc).2; omega))
    exact ⟨Node.mk (h[r]).name (h[r]).distanceToParent ds, by simp only [Heap.toNode, hget, hds]⟩

theorem WF_init : ParseState.WF ⟨[], []⟩ :=
  ⟨by simp, fun _ => 0, by intro r o h; simp at h⟩

/-- A step from a non-empty stack does not raise, and leaves a non-empty
stack. -/
theorem step_of_stack_ne_nil (s : ParseState) (token : Token) (hs : s.stack ≠ []) :
    ∃ s1, step s token = Except.ok s1 ∧ s1.stack ≠ [] := by
  obtain ⟨ty, v⟩ := token
  cases hst : s.stack with
  | nil => exact absurd hst hs
  | cons top rest =>
    cases ty <;> simp [step, hst]

theorem parseLoop_of_stack_ne_nil (tokens : List Token) :
    ∀ s : ParseState, s.WF → s.stack ≠ [] →
      ∃ s1, parseLoop s tokens = Except.ok s1 ∧ s1.WF ∧ s1.stack ≠ [] := by
  induction tokens with
  | nil => intro s hwf hs; exact ⟨s, rfl, hwf, hs⟩
  | cons t ts ih =>
    intro s hwf hs
    obtain ⟨s1, h1, hne⟩ := step_of_stack_ne_nil s t hs
    obtain ⟨s2, h2, hwf2, hne2⟩ := ih s1 (step_WF hwf h1) hne
    exact ⟨s2, by simp only [parseLoop, h1, h2], hwf2, hne2⟩

/-- The first token being a name or a closing parenthesis, `parse` returns
a root that unfolds into a tree. -/
theorem parse_of_leading_name_or_close (t : Token) (ts : List Token)
    (ht : t.type = TokenType.name ∨ t.type = TokenType.close) :
    ∃ h r n, parse (t :: ts) = Except.ok (h, some r) ∧ Heap.toNode h h.length r = some n := by
  have h0 : ∃ s0, step ⟨[], []⟩ t = Except.ok s0 ∧ s0.stack ≠ [] := by
    obtain ⟨ty, v⟩ := t
    simp only at ht
    rcases ht with rfl | rfl <;> simp [step, popNamed]
  obtain ⟨s0, hs0, hne0⟩ := h0
  obtain ⟨s1, h1, ⟨hstack, rank, hr⟩, hne1⟩ :=
    parseLoop_of_stack_ne_nil ts s0 (step_WF WF_init hs0) hne0
  obtain ⟨r, hlast⟩ : ∃ r, s1.stack.getLast? = some r := by
    cases hl : s1.stack.getLast? with
    | none => exact absurd (List.getLast?_eq_none_iff.1 hl) hne1
    | some r => exact ⟨r, rfl⟩
  have hrmem : r ∈ s1.stack := List.mem_of_getLast?_eq_some hlast
  have hrlt : r < s1.heap.length := hstack r hrmem
  obtain ⟨n, hn⟩ := toNode_some hr s1.heap.length r hrlt
    (hr r _ (by simp [hrlt] : s1.heap[r]? = some s1.heap[r])).1
  exact ⟨s1.heap, r, n, by simp only [parse, parseLoop, hs0, h1, hlast], hn⟩

theorem parseNewick_of_leading_name_or_close (newick : String) (t : Token) (ts : List Token)
    (htok : tokenize newick = t :: ts)
    (ht : t.type = TokenType.name ∨ t.type = TokenType.close) :
    ∃ root, parseNewick newick = Except.ok (PhylogeneticNetwork.new (some root)) := by
  obtain ⟨h, r, n, hp, hn⟩ := parse_of_leading_name_or_close t ts ht
  exact ⟨n, by simp only [parseNewick, htok, hp, hn]⟩


theorem parseLoop_WF (tokens : List Token) :
    ∀ s s1 : ParseState, s.WF → parseLoop s tokens = Except.ok s1 → s1.WF := by
  induction tokens with
  | nil =>
    intro s s1 hwf h
    simp only [parseLoop, Except.ok.injEq] at h
    subst h; exact hwf
  | cons t ts ih =>
    intro s s1 hwf h
    simp only [parseLoop] at h
    cases hst : step s t with
    | error e => simp [hst] at h
    | ok s0 =>
      simp only [hst] at h
      exact ih s0 s1 (step_WF hwf hst) h

theorem step_error {s : ParseState} {token : Token} {e : JSError}
    (h : step s token = Except.error e) : e = JSError.typeError := by
  obtain ⟨ty, v⟩ := token
  cases ty <;> simp only [step] at h <;> (try split at h) <;> simp_all

theorem parseLoop_error (tokens : List Token) :
    ∀ (s : ParseState) (e : JSError), parseLoop s tokens = Except.error e →
      e = JSError.typeError := by
  induction tokens with
  | nil => intro s e h; simp [parseLoop] at h
  | cons t ts ih =>
    intro s e h
    simp only [parseLoop] at h
    cases hst : step s t with
    | error e1 =>
      simp only [hst, Except.error.injEq] at h
      subst h
      exact step_error hst
    | ok s0 =>
      simp only [hst] at h
      exact ih s0 e h

/-- The unfolding of the parsed object graph never runs out of fuel:
`parseNewick` ends in a network or in a `TypeError`. -/
theorem parseNewick_ne_cyclic (newick : String) :
    parseNewick newick ≠ Except.error JSError.cyclic := by
  unfold parseNewick
  simp only
  cases hp : parse (tokenize newick) with
  | error e =>
    simp only
    unfold parse at hp
    cases hl : parseLoop ⟨[], []⟩ (tokenize newick) with
    | ok s => simp [hl] at hp
    | error e1 =>
      simp only [hl, Except.error.injEq] at hp
      subst hp
      rw [parseLoop_error _ _ _ hl]
      simp
  | ok p =>
    obtain ⟨h, r⟩ := p
    cases r with
    | none => simp
    | some r =>
      simp only
      unfold parse at hp
      cases hl : parseLoop ⟨[], []⟩ (tokenize newick) with
      | error e1 => simp [hl] at hp
      | ok s =>
        simp only [hl, Except.ok.injEq, Prod.mk.injEq] at hp
        obtain ⟨rfl, hlast⟩ := hp
        obtain ⟨hstack, rank, hr⟩ := parseLoop_WF _ _ _ WF_init hl
        have hrlt : r < s.heap.length := hstack r (List.mem_of_getLast?_eq_some hlast)
        obtain ⟨n, hn⟩ := toNode_some hr s.heap.length r hrlt
          (hr r _ (by simp [hrlt] : s.heap[r]? = some s.heap[r])).1
        simp [hn]

/-! ## parseNewick -/

/-- Claim C1, the code at the claim's inputs: on "(A,B,C);", and on every
parenthesised list of names, the first token is the opening parenthesis, the
open case pops an empty stack and writes `child.parent` on `undefined`, and
`parseNewick` ends with a `TypeError`; no network is returned. -/
theorem parseNewick_name_list_raises (names : List String) :
    parseNewick "(A,B,C);" = Except.error JSError.typeError ∧
    parseNewick ("(" ++ (",".intercalate names ++ ");")) = Except.error JSError.typeError :=
  ⟨rfl, parseNewick_leading_open _⟩

/-- Claim C2, the code at the claim's inputs: "(A:1.5,B:2.0):0.5;", and every
input of that shape, ends with a `TypeError` on its first token.  The
tokenizer, moreover, has no length token for ":0.5" after the closing
parenthesis: it passes over the colon and the point and reads the names `0`
and `5`. -/
theorem parseNewick_weighted_pair_raises (a x b y z : String) :
    parseNewick "(A:1.5,B:2.0):0.5;" = Except.error JSError.typeError ∧
    parseNewick ("(" ++ (a ++ ":" ++ x ++ "," ++ b ++ ":" ++ y ++ "):" ++ z ++ ";")) =
      Except.error JSError.typeError ∧
    tokenize "(A:1.5,B:2.0):0.5;" =
      [⟨TokenType.opening, "("⟩, ⟨TokenType.name, "A"⟩, ⟨TokenType.length, "1.5"⟩,
        ⟨TokenType.comma, ","⟩, ⟨TokenType.name, "B"⟩, ⟨TokenType.length, "2.0"⟩,
        ⟨TokenType.close, ")"⟩, ⟨TokenType.name, "0"⟩, ⟨TokenType.name, "5"⟩] :=
  ⟨rfl, parseNewick_leading_open _, rfl⟩

/-- With every case of the `switch` in a block of its own: for a name of
letters, digits and underscores, `parseNewick` of the name followed by ";"
returns a network whose root has that name and no descendents, and whose
`computeSize` is 1. -/
theorem parseNewick_single_name (n : String) (hne : n.data ≠ [])
    (hw : ∀ c ∈ n.data, isWordChar c = true) :
    ∃ root, parseNewick (n ++ ";") = Except.ok (PhylogeneticNetwork.new (some root)) ∧
      root.name = some n ∧ root.descendents = [] ∧ root.computeSize = 1 := by
  refine ⟨Node.mk (some n) Val.undefined [], ?_, rfl, rfl, rfl⟩
  simp [parseNewick, tokenize_name n hne hw, parse, parseLoop, step, Heap.toNode, allSome,
    Obj.new]

/-- With every case of the `switch` in a block of its own, the parser checks
no balance: whenever the first token of the input is a name, `parseNewick`
returns a network with a root, whatever parentheses follow. -/
theorem parseNewick_returns_after_leading_name (newick v : String) (ts : List Token)
    (htok : tokenize newick = ⟨TokenType.name, v⟩ :: ts) :
    ∃ root, parseNewick newick = Except.ok (PhylogeneticNetwork.new (some root)) :=
  parseNewick_of_leading_name_or_close newick _ ts htok (Or.inl rfl)

/-! ## computeSize -/

namespace Node

theorem subtree_eq (n : Node) : n.subtree = n :: subtreeList n.descendents := by
  cases n; simp [subtree, descendents]

theorem self_mem_subtree (n : Node) : n ∈ n.subtree := by
  cases n; simp [subtree]

theorem mem_subtreeList {m : Node} {ds : List Node} :
    m ∈ subtreeList ds ↔ ∃ d ∈ ds, m ∈ d.subtree := by
  induction ds with
  | nil => simp [subtreeList]
  | cons d ds ih => simp [subtreeList, ih]

mutual
theorem computeSize_eq_length : ∀ n : Node, n.computeSize = n.subtree.length
  | mk _ _ ds => by
    simp [computeSize, subtree, computeSizeLoop_eq_length ds 1]; omega
theorem computeSizeLoop_eq_length : ∀ (ds : List Node) (size : Nat),
    computeSizeLoop ds size = size + (subtreeList ds).length
  | [], size => by simp [computeSizeLoop, subtreeList]
  | d :: ds, size => by
    simp [computeSizeLoop, subtreeList, computeSizeLoop_eq_length ds, computeSize_eq_length d]
    omega
end

theorem computeSizeLoop_sum (ds : List Node) (size : Nat) :
    computeSizeLoop ds size = size + (ds.map computeSize).sum := by
  induction ds generalizing size with
  | nil => simp [computeSizeLoop]
  | cons d ds ih => simp [computeSizeLoop, ih]; omega

/-- Claim C5: `computeSize` of a node is the number of nodes of its subtree,
the node included; it is 1 plus the sum of `computeSize` over the
descendents, and 1 plus the number of nodes below the node. -/
theorem computeSize_counts_subtree (n : Node) :
    n.computeSize = n.subtree.length ∧
    n.computeSize = 1 + (n.descendents.map computeSize).sum ∧
    n.computeSize = 1 + (subtreeList n.descendents).length := by
  refine ⟨computeSize_eq_length n, ?_, ?_⟩
  · cases n; simp [computeSize, descendents, computeSizeLoop_sum]
  · rw [computeSize_eq_length, subtree_eq]; simp; omega

/-! ## computeDepth -/

theorem isNum_iff (v : Val) : v.isNum = true ↔ ∃ q, v = Val.num q := by
  cases v <;> simp [Val.isNum]

mutual
theorem computeDepth_max : ∀ n : Node, n.Numeric →
    ∃ q, n.computeDepth = Val.num q ∧
      (∃ m ∈ n.subtree, m.distanceToParent = Val.num q) ∧
      ∀ m ∈ n.subtree, ∀ dq, m.distanceToParent = Val.num dq → dq ≤ q
  | mk nm dist ds, h => by
    have hd : (mk nm dist ds).distanceToParent.isNum = true := h _ (self_mem_subtree _)
    obtain ⟨q0, hq0⟩ := (isNum_iff _).1 hd
    simp only [distanceToParent] at hq0
    subst hq0
    have hds : ∀ m ∈ subtreeList ds, m.distanceToParent.isNum = true := by
      intro m hm; exact h m (by simp [subtree, hm])
    obtain ⟨q, hq, hle, hor, hall⟩ := computeDepthLoop_max ds q0 hds
    refine ⟨q, by simpa [computeDepth] using hq, ?_, ?_⟩
    · rcases hor with rfl | ⟨m, hm, hmq⟩
      · exact ⟨_, self_mem_subtree _, rfl⟩
      · exact ⟨m, by simp [subtree, hm], hmq⟩
    · intro m hm dq hmd
      simp only [subtree, List.mem_cons] at hm
      rcases hm with rfl | hm
      · simp only [distanceToParent, Val.num.injEq] at hmd
        subst hmd; exact hle
      · exact hall m hm dq hmd
theorem computeDepthLoop_max : ∀ (ds : List Node) (q0 : ℚ),
    (∀ m ∈ subtreeList ds, m.distanceToParent.isNum = true) →
    ∃ q, computeDepthLoop ds (Val.num q0) = Val.num q ∧ q0 ≤ q ∧
      (q = q0 ∨ ∃ m ∈ subtreeList ds, m.distanceToParent = Val.num q) ∧
      ∀ m ∈ subtreeList ds, ∀ dq, m.distanceToParent = Val.num dq → dq ≤ q
  | [], q0, _ => ⟨q0, by simp [computeDepthLoop], le_refl _, Or.inl rfl, by simp [subtreeList]⟩
  | d :: ds, q0, h => by
    have hd : d.Numeric := fun m hm => h m (by simp [subtreeList, hm])
    have hds : ∀ m ∈ subtreeList ds, m.distanceToParent.isNum = true :=
      fun m hm => h m (by simp [subtreeList, hm])
    obtain ⟨qd, hqd, ⟨md, hmd, hmdq⟩, halld⟩ := computeDepth_max d hd
    obtain ⟨q, hq, hle, hor, hall⟩ := computeDepthLoop_max ds (max q0 qd) hds
    refine ⟨q, by simpa [computeDepthLoop, hqd, mathMax] using hq,
      le_trans (le_max_left _ _) hle, ?_, ?_⟩
    · rcases hor with rfl | ⟨m, hm, hmq⟩
      · rcases max_cases q0 qd with ⟨he, _⟩ | ⟨he, _⟩
        · exact Or.inl he
        · exact Or.inr ⟨md, by simp [subtreeList, hmd], by rw [he]; exact hmdq⟩
      · exact Or.inr ⟨m, by simp [subtreeList, hm], hmq⟩
    · intro m hm dq hmdist
      simp only [subtreeList, List.mem_append] at hm
      rcases hm with hm | hm
      · exact le_trans (halld m hm dq hmdist) (le_trans (le_max_right _ _) hle)
      · exact hall m hm dq hmdist
end

theorem computeDepthLoop_foldl (ds : List Node) (depth : Val) :
    computeDepthLoop ds depth = (ds.map computeDepth).foldl mathMax depth := by
  induction ds generalizing depth with
  | nil => simp [computeDepthLoop]
  | cons d ds ih => simp [computeDepthLoop, ih]

theorem mem_subtree_of_mem_descendents {n c : Node} (hc : c ∈ n.descendents) :
    c ∈ n.subtree := by
  cases n with
  | mk nm dist ds =>
    simp only [descendents] at hc
    simp only [subtree, List.mem_cons]
    exact Or.inr (mem_subtreeList.2 ⟨c, hc, self_mem_subtree c⟩)

/-- Claim C6, the code against the claim: a leaf with branch length 3 has
`computeDepth` 3, where the claim has 0; and under a root with branch length
0, a child with length 1 over a grandchild with length 2 gives 2, where the
claim has 1 + 2 = 3. -/
theorem computeDepth_is_not_cumulative :
    (Node.mk (some "A") (Val.num 3) []).computeDepth = Val.num 3 ∧
    (Node.mk (some "A") (Val.num 3) []).computeDepth ≠
      Val.num (Node.mk (some "A") (Val.num 3) []).specDepth ∧
    (Node.mk none (Val.num 0)
      [Node.mk (some "A") (Val.num 1) [Node.mk (some "B") (Val.num 2) []]]).computeDepth
      = Val.num 2 ∧
    (Node.mk none (Val.num 0)
      [Node.mk (some "A") (Val.num 1) [Node.mk (some "B") (Val.num 2) []]]).specDepth = 3 := by
  refine ⟨by decide, by decide, by decide, ?_⟩
  simp [specDepth, specDepthMax, Val.toNum]
  norm_num

/-- What `computeDepth` computes: it starts from the node's own
`distanceToParent` and takes `Math.max` with the `computeDepth` of every
descendent; on a tree of finite branch lengths it is the largest
`distanceToParent` found in the subtree, the node's own included. -/
theorem computeDepth_is_largest_distance (n : Node) (h : n.Numeric) :
    n.computeDepth = (n.descendents.map computeDepth).foldl mathMax n.distanceToParent ∧
    ∃ q, n.computeDepth = Val.num q ∧
      (∃ m ∈ n.subtree, m.distanceToParent = Val.num q) ∧
      ∀ m ∈ n.subtree, ∀ dq, m.distanceToParent = Val.num dq → dq ≤ q := by
  refine ⟨?_, computeDepth_max n h⟩
  cases n; simp [computeDepth, descendents, distanceToParent, computeDepthLoop_foldl]

/-- Claim C7: on a tree of finite branch lengths, `computeDepth` of a node is
at least the `distanceToParent` of each of its descendents. -/
theorem computeDepth_ge_child_distance (n c : Node) (h : n.Numeric)
    (hc : c ∈ n.descendents) :
    ∃ q dc, n.computeDepth = Val.num q ∧ c.distanceToParent = Val.num dc ∧ dc ≤ q := by
  obtain ⟨q, hq, _, hall⟩ := computeDepth_max n h
  have hmem := mem_subtree_of_mem_descendents hc
  obtain ⟨dc, hdc⟩ := (isNum_iff _).1 (h c hmem)
  exact ⟨q, dc, hq, hdc, hall c hmem dc hdc⟩

theorem computeDepth_ge_child_distance_witness :
    (Node.mk none (Val.num 1) [Node.mk (some "A") (Val.num 2) []]).Numeric ∧
    Node.mk (some "A") (Val.num 2) [] ∈
      (Node.mk none (Val.num 1) [Node.mk (some "A") (Val.num 2) []]).descendents ∧
    ∃ q dc, (Node.mk none (Val.num 1) [Node.mk (some "A") (Val.num 2) []]).computeDepth =
        Val.num q ∧
      (Node.mk (some "A") (Val.num 2) []).distanceToParent = Val.num dc ∧ dc ≤ q :=
  ⟨by decide, List.mem_singleton.2 rfl,
    computeDepth_ge_child_distance _ _ (by decide) (List.mem_singleton.2 rfl)⟩

end Node

/-! ## The layout -/

theorem NameMap.get_set_self {α : Type} (m : NameMap α) (k : Option String) (v : α) :
    NameMap.get (NameMap.set m k v) k = some v := by
  induction m with
  | nil => simp [NameMap.set, NameMap.get]
  | cons e m ih =>
    obtain ⟨k0, v0⟩ := e
    by_cases hk : k0 = k
    · simp [NameMap.set, NameMap.get, hk]
    · simp [NameMap.set, NameMap.get, hk, ih]

theorem computePositionsHelper_eq (d : NetworkDiagram) (node : Node) (x y : ℚ)
    (xScale yScale : Val) :
    NetworkDiagram.computePositionsHelper d node x y xScale yScale =
      ⟨d.width, d.height, NameMap.set d.nodePositions node.name ⟨x, y⟩⟩ := by
  unfold NetworkDiagram.computePositionsHelper
  split <;> rfl

theorem computePositions_eq (d : NetworkDiagram) (root : Node) (nodes : NameMap Node) :
    NetworkDiagram.computePositions d ⟨some root, nodes⟩ =
      Except.ok ⟨d.width, d.height,
        NameMap.set d.nodePositions root.name ⟨0, d.height / 2⟩⟩ := by
  simp only [NetworkDiagram.computePositions, computePositionsHelper_eq]

/-- Claim C8, the code against the claim: the tree parsed from "A;", laid out
by a new 800 by 600 diagram, has its root at (0, 300), which is not
(800 / 2, 0). -/
theorem computePositions_root_not_top_middle :
    parseNewick "A;" =
      Except.ok (PhylogeneticNetwork.new (some (Node.mk (some "A") Val.undefined []))) ∧
    (∃ d1, NetworkDiagram.computePositions NetworkDiagram.new
        (PhylogeneticNetwork.new (some (Node.mk (some "A") Val.undefined []))) = Except.ok d1 ∧
      NameMap.get d1.nodePositions (some "A") = some ⟨0, 300⟩) ∧
    (⟨0, 300⟩ : Position) ≠ ⟨800 / 2, 0⟩ := by
  refine ⟨rfl, ⟨_, computePositions_eq _ _ _, ?_⟩, ?_⟩
  · have h600 : (600 : ℚ) / 2 = 300 := by norm_num
    simp [NameMap.set, NameMap.get, NetworkDiagram.new, PhylogeneticNetwork.new, Node.name, h600]
  · intro h
    have hy := congrArg Position.y h
    norm_num at hy

/-- Claim C8 as the code has it: for every network with a root and every
diagram width and height, `computePositions` stores for the root the
coordinate (0, height / 2), and leaves the dimensions as they were. -/
theorem computePositions_root_left_middle (d : NetworkDiagram) (network : PhylogeneticNetwork)
    (root : Node) (h : network.root = some root) :
    ∃ d1, NetworkDiagram.computePositions d network = Except.ok d1 ∧
      NameMap.get d1.nodePositions root.name = some ⟨0, d.height / 2⟩ ∧
      d1.width = d.width ∧ d1.height = d.height := by
  obtain ⟨r, nodes⟩ := network
  simp only at h
  subst h
  exact ⟨_, computePositions_eq d root nodes, NameMap.get_set_self _ _ _, rfl, rfl⟩

theorem computePositions_root_left_middle_witness :
    (PhylogeneticNetwork.new (some (Node.mk (some "A") Val.undefined []))).root =
      some (Node.mk (some "A") Val.undefined []) ∧
    ∃ d1, NetworkDiagram.computePositions NetworkDiagram.new
        (PhylogeneticNetwork.new (some (Node.mk (some "A") Val.undefined []))) = Except.ok d1 ∧
      NameMap.get d1.nodePositions (Node.mk (some "A") Val.undefined []).name =
        some ⟨0, NetworkDiagram.new.height / 2⟩ ∧
      d1.width = NetworkDiagram.new.width ∧ d1.height = NetworkDiagram.new.height :=
  ⟨rfl, computePositions_root_left_middle _ _ _ rfl⟩

/-- Claim C9, the code at the failing input: a root `R` with the two leaves
`A` and `B` below it, laid out by a new diagram, leaves a coordinate map with
the single entry of `R`; `A` and `B` have none. -/
theorem computePositions_positions_only_root :
    NetworkDiagram.computePositions NetworkDiagram.new
      (PhylogeneticNetwork.new (some (Node.mk (some "R") (Val.num 0)
        [Node.mk (some "A") (Val.num 1) [], Node.mk (some "B") (Val.num 2) []]))) =
      Except.ok ⟨800, 600, [(some "R", ⟨0, 300⟩)]⟩ := by
  rw [PhylogeneticNetwork.new, computePositions_eq]
  simp [NetworkDiagram.new, NameMap.set, Node.name]
  norm_num

/-- Claim C10, the code on every tree: after `computePositions` on a diagram
with an empty coordinate map, no descendent of the root whose name differs
from the root's has an entry, so none is given a band or an x coordinate. -/
theorem computePositions_skips_descendents (W H : ℚ) (root c : Node) (nodes : NameMap Node)
    (_hc : c ∈ root.descendents) (hname : c.name ≠ root.name) :
    ∃ d1, NetworkDiagram.computePositions ⟨W, H, []⟩ ⟨some root, nodes⟩ = Except.ok d1 ∧
      NameMap.get d1.nodePositions c.name = none := by
  refine ⟨_, computePositions_eq _ _ _, ?_⟩
  simp [NameMap.set, NameMap.get, Ne.symm hname]

theorem computePositions_skips_descendents_witness :
    Node.mk (some "A") (Val.num 1) [] ∈
      (Node.mk (some "R") (Val.num 0)
        [Node.mk (some "A") (Val.num 1) [], Node.mk (some "B") (Val.num 2) []]).descendents ∧
    (Node.mk (some "A") (Val.num 1) []).name ≠
      (Node.mk (some "R") (Val.num 0)
        [Node.mk (some "A") (Val.num 1) [], Node.mk (some "B") (Val.num 2) []]).name ∧
    ∃ d1, NetworkDiagram.computePositions ⟨800, 600, []⟩
        ⟨some (Node.mk (some "R") (Val.num 0)
          [Node.mk (some "A") (Val.num 1) [], Node.mk (some "B") (Val.num 2) []]), []⟩ =
        Except.ok d1 ∧
      NameMap.get d1.nodePositions (Node.mk (some "A") (Val.num 1) []).name = none :=
  ⟨List.mem_cons_self _ _, by decide,
    computePositions_skips_descendents 800 600 _ _ [] (List.mem_cons_self _ _) (by decide)⟩

/-! ## The tokens of a match -/


theorem matchLength_spec {cs len rest : List Char} (h : matchLength cs = some (len, rest)) :
    len ≠ [] ∧ rest.length + 2 ≤ cs.length := by
  unfold matchLength at h
  split at h
  · rename_i r
    simp only at h
    split at h
    · cases h
    · rename_i hd1
      have hsum : (r.takeWhile Char.isDigit).length + (r.dropWhile Char.isDigit).length
          = r.length := by
        rw [← List.length_append, List.takeWhile_append_dropWhile]
      have hpos : 0 < (r.takeWhile Char.isDigit).length := List.length_pos.2 hd1
      split at h
      · rename_i r2 heq
        rw [heq] at hsum
        have h2 := (List.dropWhile_sublist (l := r2) Char.isDigit).length_le
        split at h
        · simp only [Option.some.injEq, Prod.mk.injEq] at h
          obtain ⟨rfl, rfl⟩ := h
          exact ⟨hd1, by simp only [List.length_cons] at hsum ⊢; omega⟩
        · simp only [Option.some.injEq, Prod.mk.injEq] at h
          obtain ⟨rfl, rfl⟩ := h
          exact ⟨by simp, by simp only [List.length_cons] at hsum ⊢; omega⟩
      · simp only [Option.some.injEq, Prod.mk.injEq] at h
        obtain ⟨rfl, rfl⟩ := h
        exact ⟨hd1, by simp only [List.length_cons]; omega⟩
  · cases h

/-- The tokens one match pushes: a name, a name and a length, or one of the
three punctuation tokens; never more tokens than the match has characters. -/
theorem matchAt_tokens {cs rest : List Char} {m : RegexMatch}
    (h : matchAt cs = some (m, rest)) :
    ((∃ w, pushTokens [] m = [⟨TokenType.name, w⟩]) ∨
      (∃ w l, pushTokens [] m = [⟨TokenType.name, w⟩, ⟨TokenType.length, l⟩]) ∨
      pushTokens [] m = [⟨TokenType.opening, "("⟩] ∨
      pushTokens [] m = [⟨TokenType.close, ")"⟩] ∨
      pushTokens [] m = [⟨TokenType.comma, ","⟩]) ∧
    (pushTokens [] m).length + rest.length ≤ cs.length := by
  cases cs with
  | nil => simp [matchAt] at h
  | cons c cs =>
    simp only [matchAt] at h
    split at h
    · rename_i hc
      have hw : List.takeWhile isWordChar (c :: cs) ≠ [] := by
        rw [List.takeWhile_cons_of_pos hc]; simp
      have hdrop : ((c :: cs).dropWhile isWordChar).length ≤ cs.length := by
        rw [List.dropWhile_cons_of_pos hc]
        exact (List.dropWhile_sublist _).length_le
      have htw : truthy (some (String.mk (List.takeWhile isWordChar (c :: cs)))) = true := by
        simp only [truthy, List.isEmpty_eq_true, Bool.not_eq_true', decide_eq_false_iff_not]
        simpa using hw
      split at h
      · rename_i len r2 heq
        obtain ⟨hlen, hle⟩ := matchLength_spec heq
        have htl : truthy (some (String.mk len)) = true := by
          simp only [truthy, List.isEmpty_eq_true, Bool.not_eq_true', decide_eq_false_iff_not]
          simpa using hlen
        simp only [Option.some.injEq, Prod.mk.injEq] at h
        obtain ⟨rfl, rfl⟩ := h
        refine ⟨Or.inr (Or.inl ⟨String.mk (List.takeWhile isWordChar (c :: cs)),
          String.mk len, ?_⟩), ?_⟩
        · simp [pushTokens, pushIf, htw, htl]
        · simp only [pushTokens, pushIf, htw, htl, if_true, List.nil_append,
            List.length_append, List.length_cons, List.length_nil]
          omega
      · simp only [Option.some.injEq, Prod.mk.injEq] at h
        obtain ⟨rfl, rfl⟩ := h
        refine ⟨Or.inl ⟨String.mk (List.takeWhile isWordChar (c :: cs)), ?_⟩, ?_⟩
        · simp [pushTokens, pushIf, htw]
        · simp only [pushTokens, pushIf, htw, if_true, List.nil_append,
            List.length_cons, List.length_nil]
          omega
    · split at h
      · simp only [Option.some.injEq, Prod.mk.injEq] at h
        obtain ⟨rfl, rfl⟩ := h
        exact ⟨Or.inr (Or.inr (Or.inl rfl)), by simp [pushTokens, pushIf, truthy]; omega⟩
      · split at h
        · simp only [Option.some.injEq, Prod.mk.injEq] at h
          obtain ⟨rfl, rfl⟩ := h
          exact ⟨Or.inr (Or.inr (Or.inr (Or.inl rfl))), by simp [pushTokens, pushIf, truthy]; omega⟩
        · split at h
          · simp only [Option.some.injEq, Prod.mk.injEq] at h
            obtain ⟨rfl, rfl⟩ := h
            exact ⟨Or.inr (Or.inr (Or.inr (Or.inr rfl))), by simp [pushTokens, pushIf, truthy]; omega⟩
          · cases h

theorem exec_tokens {cs rest : List Char} {m : RegexMatch}
    (h : exec cs = some (m, rest)) :
    ((∃ w, pushTokens [] m = [⟨TokenType.name, w⟩]) ∨
      (∃ w l, pushTokens [] m = [⟨TokenType.name, w⟩, ⟨TokenType.length, l⟩]) ∨
      pushTokens [] m = [⟨TokenType.opening, "("⟩] ∨
      pushTokens [] m = [⟨TokenType.close, ")"⟩] ∨
      pushTokens [] m = [⟨TokenType.comma, ","⟩]) ∧
    (pushTokens [] m).length + rest.length ≤ cs.length := by
  induction cs with
  | nil => simp [exec] at h
  | cons c cs ih =>
    simp only [exec] at h
    split at h
    · rename_i p heq
      simp only [Option.some.injEq] at h
      subst h
      exact matchAt_tokens heq
    · obtain ⟨h1, h2⟩ := ih h
      exact ⟨h1, by simp only [List.length_cons]; omega⟩

/-- The tokens of an input on which `exec` finds nothing. -/
theorem tokenizeLoop_of_exec_none {cs : List Char} (h : exec cs = none) :
    tokenizeLoop cs.length cs [] = [] := by
  cases hl : cs.length with
  | zero => rfl
  | succ n => simp only [tokenizeLoop, h]

/-- The tokens of an input: those of the first match, then those of the
input after it. -/
theorem tokenizeLoop_of_exec_some {cs rest : List Char} {m : RegexMatch}
    (h : exec cs = some (m, rest)) :
    tokenizeLoop cs.length cs [] = pushTokens [] m ++ tokenizeLoop rest.length rest [] := by
  have hlt := exec_length h
  cases hl : cs.length with
  | zero => omega
  | succ n =>
    simp only [tokenizeLoop, h]
    rw [tokenizeLoop_acc, tokenizeLoop_fuel n rest [] (by omega)]

theorem tokenizeLoop_length_le (n : Nat) :
    ∀ cs : List Char, cs.length = n → (tokenizeLoop cs.length cs []).length ≤ cs.length := by
  induction n using Nat.strong_induction_on with
  | _ n ih =>
    intro cs hn
    cases hex : exec cs with
    | none => rw [tokenizeLoop_of_exec_none hex]; exact Nat.zero_le _
    | some p =>
      obtain ⟨m, rest⟩ := p
      have hlt := exec_length hex
      have hcount := (exec_tokens hex).2
      have := ih rest.length (by omega) rest rfl
      rw [tokenizeLoop_of_exec_some hex, List.length_append]
      omega

theorem lengthsFollowNames_mono (ts : List Token) (h : lengthsFollowNames false ts = true) :
    lengthsFollowNames true ts = true := by
  cases ts with
  | nil => rfl
  | cons t ts =>
    simp only [lengthsFollowNames, Bool.or_false, Bool.or_true, Bool.true_and,
      Bool.and_eq_true] at h ⊢
    exact h.2

theorem tokenizeLoop_lengthsFollowNames (n : Nat) :
    ∀ cs : List Char, cs.length = n →
      lengthsFollowNames false (tokenizeLoop cs.length cs []) = true := by
  induction n using Nat.strong_induction_on with
  | _ n ih =>
    intro cs hn
    cases hex : exec cs with
    | none => rw [tokenizeLoop_of_exec_none hex]; rfl
    | some p =>
      obtain ⟨m, rest⟩ := p
      have hlt := exec_length hex
      have hrest := ih rest.length (by omega) rest rfl
      rw [tokenizeLoop_of_exec_some hex]
      rcases (exec_tokens hex).1 with ⟨w, hw⟩ | ⟨w, l, hw⟩ | hw | hw | hw <;> rw [hw]
      · simpa [lengthsFollowNames] using lengthsFollowNames_mono _ hrest
      · simpa [lengthsFollowNames] using hrest
      · simpa [lengthsFollowNames] using hrest
      · simpa [lengthsFollowNames] using hrest
      · simpa [lengthsFollowNames] using hrest

/-- The index form: a length token is never first, and the token before it
is a name. -/
theorem lengthsFollowNames_index (ts : List Token) :
    ∀ (b : Bool), lengthsFollowNames b ts = true →
      ∀ i v, ts[i]? = some ⟨TokenType.length, v⟩ →
        (i = 0 ∧ b = true) ∨ ∃ j n, i = j + 1 ∧ ts[j]? = some ⟨TokenType.name, n⟩ := by
  induction ts with
  | nil => intro b _ i v h; simp at h
  | cons t ts ih =>
    intro b hb i v hi
    simp only [lengthsFollowNames, Bool.and_eq_true, Bool.or_eq_true, bne_iff_ne, ne_eq] at hb
    cases i with
    | zero =>
      simp only [List.getElem?_cons_zero, Option.some.injEq] at hi
      subst hi
      rcases hb.1 with h | h
      · exact absurd rfl h
      · exact Or.inl ⟨rfl, h⟩
    | succ i =>
      simp only [List.getElem?_cons_succ] at hi
      rcases ih _ hb.2 i v hi with ⟨rfl, hname⟩ | ⟨j, n, rfl, hj⟩
      · refine Or.inr ⟨0, t.value, rfl, ?_⟩
        simp only [beq_iff_eq] at hname
        obtain ⟨ty, val⟩ := t
        simp only at hname
        subst hname
        simp
      · exact Or.inr ⟨j + 1, n, rfl, by simpa using hj⟩

theorem heap_update_append_last (h : Heap) (o : Obj) (f : Obj → Obj) :
    Heap.update (h ++ [o]) h.length f = h ++ [f o] := by
  induction h with
  | nil => rfl
  | cons a h ih => simp [Heap.update, ih]

/-- A name step followed by a length step: the length is written to the
node the name step has just pushed. -/
theorem parseLoop_name_length (s : ParseState) (n v : String) :
    parseLoop s [⟨TokenType.name, n⟩, ⟨TokenType.length, v⟩] =
      Except.ok ⟨s.heap ++ [⟨some n, parseFloat v, [], none⟩], s.heap.length :: s.stack⟩ := by
  simp only [parseLoop, step, heap_update_append_last, Obj.new]

/-! ## Characters that match nothing -/

theorem takeWhile_append_stop (p : Char → Bool) (l : List Char) (c : Char) (post : List Char)
    (hc : p c = false) : (l ++ c :: post).takeWhile p = l.takeWhile p := by
  induction l with
  | nil => simp [List.takeWhile, hc]
  | cons a l ih =>
    simp only [List.cons_append, List.takeWhile_cons]
    split
    · rw [ih]
    · rfl

theorem dropWhile_append_stop (p : Char → Bool) (l : List Char) (c : Char) (post : List Char)
    (hc : p c = false) : (l ++ c :: post).dropWhile p = l.dropWhile p ++ c :: post := by
  induction l with
  | nil => simp [List.dropWhile, hc]
  | cons a l ih =>
    simp only [List.cons_append, List.dropWhile_cons]
    split
    · rw [ih]
    · rfl

theorem neverMatched_spec {c : Char} (h : neverMatched c = true) :
    isWordChar c = false ∧ Char.isDigit c = false ∧ c ≠ '(' ∧ c ≠ ')' ∧ c ≠ ',' ∧ c ≠ ':' ∧
      c ≠ '.' := by
  simp only [neverMatched, Bool.and_eq_true, Bool.not_eq_true', bne_iff_ne, ne_eq] at h
  obtain ⟨⟨⟨⟨⟨h1, h2⟩, h3⟩, h4⟩, h5⟩, h6⟩ := h
  refine ⟨h1, ?_, h2, h3, h4, h5, h6⟩
  simp only [isWordChar, Char.isAlphanum, Bool.or_eq_false_iff] at h1
  exact h1.1.2

theorem matchLength_append (r : List Char) (c : Char) (post : List Char)
    (hc : neverMatched c = true) :
    matchLength (r ++ c :: post) =
      (matchLength r).map (fun p => (p.1, p.2 ++ c :: post)) := by
  obtain ⟨_, hdig, _, _, _, hcolon, hpoint⟩ := neverMatched_spec hc
  cases r with
  | nil =>
    simp only [List.nil_append]
    unfold matchLength
    split
    · rename_i heq
      simp only [List.cons.injEq] at heq
      exact absurd heq.1 hcolon
    · rfl
  | cons a r =>
    by_cases ha : a = ':'
    · subst ha
      simp only [List.cons_append, matchLength, takeWhile_append_stop _ _ _ _ hdig,
        dropWhile_append_stop _ _ _ _ hdig]
      split
      · rfl
      · cases hdrop : List.dropWhile Char.isDigit r with
        | nil =>
          simp only [List.nil_append]
          split
          · rename_i heq
            simp only [List.cons.injEq] at heq
            exact absurd heq.1 hpoint
          · rfl
        | cons b r2 =>
          by_cases hb : b = '.'
          · subst hb
            simp only [List.cons_append, takeWhile_append_stop _ _ _ _ hdig,
              dropWhile_append_stop _ _ _ _ hdig]
            split <;> rfl
          · simp only [List.cons_append]
            split
            · rename_i heq
              simp only [List.cons.injEq] at heq
              exact absurd heq.1 hb
            · split
              · rename_i heq
                simp only [List.cons.injEq] at heq
                exact absurd heq.1 hb
              · rfl
    · simp only [List.cons_append]
      unfold matchLength
      split
      · rename_i heq
        simp only [List.cons.injEq] at heq
        exact absurd heq.1 ha
      · split
        · rename_i heq
          simp only [List.cons.injEq] at heq
          exact absurd heq.1 ha
        · rfl

theorem matchAt_skipped (c : Char) (post : List Char) (hc : neverMatched c = true) :
    matchAt (c :: post) = none := by
  obtain ⟨hw, _, h1, h2, h3, _, _⟩ := neverMatched_spec hc
  simp [matchAt, hw, h1, h2, h3]

theorem matchAt_append (pre : List Char) (c : Char) (post : List Char)
    (hc : neverMatched c = true) :
    matchAt (pre ++ c :: post) =
      (matchAt pre).map (fun p => (p.1, p.2 ++ c :: post)) := by
  obtain ⟨hw, _, _, _, _, _, _⟩ := neverMatched_spec hc
  cases pre with
  | nil => rw [List.nil_append, matchAt_skipped c post hc]; rfl
  | cons a pre =>
    simp only [List.cons_append, matchAt]
    split
    · have h1 := takeWhile_append_stop isWordChar (a :: pre) c post hw
      have h2 := dropWhile_append_stop isWordChar (a :: pre) c post hw
      simp only [List.cons_append] at h1 h2
      simp only [h1, h2, matchLength_append _ c post hc]
      cases matchLength (List.dropWhile isWordChar (a :: pre)) with
      | none => rfl
      | some p => rfl
    · split
      · rfl
      · split
        · rfl
        · split <;> rfl

theorem exec_append (pre : List Char) (c : Char) (post : List Char)
    (hc : neverMatched c = true) :
    exec (pre ++ c :: post) =
      match exec pre with
      | some p => some (p.1, p.2 ++ c :: post)
      | none => exec post := by
  induction pre with
  | nil => simp [exec, matchAt_skipped c post hc]
  | cons a pre ih =>
    have hm := matchAt_append (a :: pre) c post hc
    simp only [List.cons_append] at hm ⊢
    simp only [exec, hm]
    cases matchAt (a :: pre) with
    | none => simpa using ih
    | some p => rfl

/-- A never-matched character separates the input: the tokens are those of
the part before it followed by those of the part after it. -/
theorem tokenizeLoop_append (n : Nat) :
    ∀ (pre : List Char) (c : Char) (post : List Char), pre.length = n →
      neverMatched c = true →
      tokenizeLoop (pre ++ c :: post).length (pre ++ c :: post) [] =
        tokenizeLoop pre.length pre [] ++ tokenizeLoop post.length post [] := by
  induction n using Nat.strong_induction_on with
  | _ n ih =>
    intro pre c post hn hc
    have hex := exec_append pre c post hc
    cases hpre : exec pre with
    | none =>
      rw [hpre] at hex
      simp only at hex
      rw [tokenizeLoop_of_exec_none hpre, List.nil_append]
      cases hpost : exec post with
      | none =>
        rw [hpost] at hex
        rw [tokenizeLoop_of_exec_none hex, tokenizeLoop_of_exec_none hpost]
      | some q =>
        obtain ⟨m, rest⟩ := q
        rw [hpost] at hex
        rw [tokenizeLoop_of_exec_some hex, tokenizeLoop_of_exec_some hpost]
    | some p =>
      obtain ⟨m, rest⟩ := p
      rw [hpre] at hex
      simp only at hex
      have hlt := exec_length hpre
      rw [tokenizeLoop_of_exec_some hex, tokenizeLoop_of_exec_some hpre,
        ih rest.length (by omega) rest c post rfl hc, List.append_assoc]

theorem tokenize_append_skipped (pre post : String) (c : Char) (hc : neverMatched c = true) :
    tokenize (pre ++ String.singleton c ++ post) = tokenize pre ++ tokenize post := by
  have hd : (pre ++ String.singleton c ++ post).data = pre.data ++ c :: post.data := by
    simp [String.singleton]
  simp only [tokenize, hd]
  exact tokenizeLoop_append _ _ _ _ rfl hc

theorem parseNewick_congr (a b : String) (h : tokenize a = tokenize b) :
    parseNewick a = parseNewick b := by
  simp only [parseNewick, h]

theorem parseLoop_append (ts1 ts2 : List Token) :
    ∀ s s2 : ParseState, parseLoop s (ts1 ++ ts2) = Except.ok s2 →
      ∃ s1, parseLoop s ts1 = Except.ok s1 ∧ parseLoop s1 ts2 = Except.ok s2 := by
  induction ts1 with
  | nil => intro s s2 h; exact ⟨s, rfl, h⟩
  | cons t ts1 ih =>
    intro s s2 h
    simp only [List.cons_append, parseLoop] at h ⊢
    cases hst : step s t with
    | error e => simp [hst] at h
    | ok s0 =>
      simp only [hst] at h ⊢
      exact ih s0 s2 h

/-- The tokenizer passes over a character that the pattern cannot match, and
with every case of the `switch` in a block of its own `parseNewick` gives
what it gives with ";" in the place of the character. -/
theorem parseNewick_passes_over_unmatched (pre post : String) (c : Char)
    (hc : neverMatched c = true) :
    tokenize (pre ++ String.singleton c ++ post) = tokenize pre ++ tokenize post ∧
    parseNewick (pre ++ String.singleton c ++ post) = parseNewick (pre ++ ";" ++ post) := by
  have h1 := tokenize_append_skipped pre post c hc
  have h2 := tokenize_append_skipped pre post ';' (by decide)
  exact ⟨h1, parseNewick_congr _ _ (by rw [h1]; exact h2.symm)⟩

/-- Claim C18: the tokenizer loop ends on every input.  Every match takes at
least one character, so the loop has ended after as many rounds as the input
has characters and more fuel changes nothing; the tokens come in the order of
the matches; and there are at most as many tokens as characters. -/
theorem tokenize_terminates (newick : String) :
    (∀ fuel, newick.data.length ≤ fuel → tokenizeLoop fuel newick.data [] = tokenize newick) ∧
    (tokenize newick).length ≤ newick.data.length ∧
    (∀ cs m rest, exec cs = some (m, rest) →
      rest.length < cs.length ∧
      tokenizeLoop cs.length cs [] = pushTokens [] m ++ tokenizeLoop rest.length rest []) :=
  ⟨fun fuel h => tokenizeLoop_fuel fuel _ _ h,
    tokenizeLoop_length_le _ _ rfl,
    fun _ _ _ h => ⟨exec_length h, tokenizeLoop_of_exec_some h⟩⟩

theorem tokenize_terminates_witness :
    (∀ fuel, "(A:1.5,B)".data.length ≤ fuel →
      tokenizeLoop fuel "(A:1.5,B)".data [] = tokenize "(A:1.5,B)") ∧
    (tokenize "(A:1.5,B)").length ≤ "(A:1.5,B)".data.length ∧
    (∀ cs m rest, exec cs = some (m, rest) →
      rest.length < cs.length ∧
      tokenizeLoop cs.length cs [] = pushTokens [] m ++ tokenizeLoop rest.length rest []) :=
  tokenize_terminates "(A:1.5,B)"

/-- Claim C20: in the tokens of every input a length token is never first
and the token before it is a name.  So when the parser comes to a length
token, the step before it was that name: the stack is not empty and its top
is the node just created for the name, the newest object of the heap. -/
theorem length_token_follows_name (newick : String) :
    (∀ i v, (tokenize newick)[i]? = some ⟨TokenType.length, v⟩ →
      ∃ j n, i = j + 1 ∧ (tokenize newick)[j]? = some ⟨TokenType.name, n⟩) ∧
    (∀ pre v post s, tokenize newick = pre ++ ⟨TokenType.length, v⟩ :: post →
      parseLoop ⟨[], []⟩ pre = Except.ok s →
      ∃ n top rest, s.stack = top :: rest ∧ top + 1 = s.heap.length ∧
        s.heap[top]? = some ⟨some n, Val.undefined, [], none⟩ ∧
        ∃ s1, step s ⟨TokenType.length, v⟩ = Except.ok s1 ∧ s1.stack = s.stack ∧
          s1.heap[top]? = some ⟨some n, parseFloat v, [], none⟩) := by
  have hidx : ∀ i v, (tokenize newick)[i]? = some ⟨TokenType.length, v⟩ →
      ∃ j n, i = j + 1 ∧ (tokenize newick)[j]? = some ⟨TokenType.name, n⟩ := by
    intro i v hi
    rcases lengthsFollowNames_index _ false (tokenizeLoop_lengthsFollowNames _ _ rfl) i v hi with
      ⟨_, hf⟩ | h
    · cases hf
    · exact h
  refine ⟨hidx, ?_⟩
  intro pre v post s htok hpre
  obtain ⟨j, n, hj, hname⟩ := hidx pre.length v
    (by rw [htok, List.getElem?_append_right (Nat.le_refl _)]; simp)
  have hjlt : j < pre.length := by omega
  rw [htok, List.getElem?_append_left hjlt] at hname
  have hne : pre ≠ [] := by intro h; rw [h] at hjlt; simp at hjlt
  have hlast : pre.getLast hne = ⟨TokenType.name, n⟩ := by
    rw [List.getLast_eq_getElem]
    have : pre.length - 1 = j := by omega
    simp only [this]
    exact (List.getElem?_eq_some.1 hname).2
  have hsplit : pre = pre.dropLast ++ [⟨TokenType.name, n⟩] := by
    rw [← hlast]; exact (List.dropLast_append_getLast hne).symm
  rw [hsplit] at hpre
  obtain ⟨s0, _, h0⟩ := parseLoop_append _ _ _ _ hpre
  simp only [parseLoop, step, Except.ok.injEq] at h0
  subst h0
  refine ⟨n, s0.heap.length, s0.stack, rfl, by simp, by simp [Obj.new], _, rfl, rfl, ?_⟩
  simp [heap_update_append_last, Obj.new]

theorem length_token_follows_name_witness :
    (∀ i v, (tokenize "A:1.5")[i]? = some ⟨TokenType.length, v⟩ →
      ∃ j n, i = j + 1 ∧ (tokenize "A:1.5")[j]? = some ⟨TokenType.name, n⟩) ∧
    (∀ pre v post s, tokenize "A:1.5" = pre ++ ⟨TokenType.length, v⟩ :: post →
      parseLoop ⟨[], []⟩ pre = Except.ok s →
      ∃ n top rest, s.stack = top :: rest ∧ top + 1 = s.heap.length ∧
        s.heap[top]? = some ⟨some n, Val.undefined, [], none⟩ ∧
        ∃ s1, step s ⟨TokenType.length, v⟩ = Except.ok s1 ∧ s1.stack = s.stack ∧
          s1.heap[top]? = some ⟨some n, parseFloat v, [], none⟩) :=
  length_token_follows_name "A:1.5"

/-! ## Names and branch lengths of the parsed nodes -/

/-- An assignment that leaves name and distance alone keeps the names and
distances of the heap. -/
theorem heap_update_labels (h : Heap) (r : Nat) (f : Obj → Obj)
    (hf : ∀ o, (f o).name = o.name ∧ (f o).distanceToParent = o.distanceToParent) :
    (Heap.update h r f).map (fun o => (o.name, o.distanceToParent)) =
      h.map (fun o => (o.name, o.distanceToParent)) := by
  induction h generalizing r with
  | nil => rfl
  | cons a h ih =>
    cases r with
    | zero => simp [Heap.update, hf a]
    | succ r => simp [Heap.update, ih]

theorem setParents_labels (h : Heap) (children : List Nat) (p : Nat) :
    (setParents h children p).map (fun o => (o.name, o.distanceToParent)) =
      h.map (fun o => (o.name, o.distanceToParent)) := by
  induction children generalizing h with
  | nil => rfl
  | cons c cs ih =>
    simp only [setParents, List.foldl_cons] at ih ⊢
    rw [ih]
    exact heap_update_labels _ _ _ (fun _ => ⟨rfl, rfl⟩)

/-- A step other than a length step adds one object and leaves the names
and distances of the others as they were. -/
theorem step_labels {s s1 : ParseState} {t : Token} (hty : t.type ≠ TokenType.length)
    (h : step s t = Except.ok s1) :
    s1.heap.map (fun o => (o.name, o.distanceToParent)) =
      s.heap.map (fun o => (o.name, o.distanceToParent)) ++
        [(if t.type = TokenType.name then some t.value else none, Val.undefined)] := by
  obtain ⟨ty, v⟩ := t
  cases ty with
  | name =>
    simp only [step, Except.ok.injEq] at h
    subst h
    simp [Obj.new]
  | length => exact absurd rfl hty
  | opening =>
    simp only [step] at h
    cases hst : s.stack with
    | nil => simp [hst] at h
    | cons child rest =>
      simp only [hst, Except.ok.injEq] at h
      subst h
      simp only
      rw [heap_update_labels]
      · simp [Obj.new]
      · intro o; exact ⟨rfl, rfl⟩
  | comma =>
    simp only [step] at h
    cases hst : s.stack with
    | nil => simp [hst] at h
    | cons parent rest =>
      simp only [hst, Except.ok.injEq] at h
      subst h
      simp only
      rw [heap_update_labels]
      · simp [Obj.new]
      · intro o; exact ⟨rfl, rfl⟩
  | close =>
    simp only [step, Except.ok.injEq] at h
    subst h
    simp only
    rw [setParents_labels]
    simp [Obj.new]

theorem parseLoop_labels (n : Nat) :
    ∀ (ts : List Token) (s s1 : ParseState), ts.length = n →
      lengthsFollowNames false ts = true → parseLoop s ts = Except.ok s1 →
      s1.heap.map (fun o => (o.name, o.distanceToParent)) =
        s.heap.map (fun o => (o.name, o.distanceToParent)) ++
          (createdNodes ts).map (fun p => (p.1, writtenDistance p.2)) := by
  induction n using Nat.strong_induction_on with
  | _ n ih =>
    intro ts s s1 hn hl h
    cases ts with
    | nil =>
      simp only [parseLoop, Except.ok.injEq] at h
      subst h
      simp [createdNodes]
    | cons t ts =>
      by_cases hname : t.type = TokenType.name
      · -- a name, with or without a length after it
        cases ts with
        | nil =>
          simp only [parseLoop] at h
          cases hst : step s t with
          | error e => simp [hst] at h
          | ok s0 =>
            simp only [hst, Except.ok.injEq] at h
            subst h
            rw [step_labels (by rw [hname]; decide) hst]
            simp [createdNodes, hname, lengthWritten, writtenDistance]
        | cons t2 ts2 =>
          by_cases hlen : t2.type = TokenType.length
          · obtain ⟨ty, nm⟩ := t
            obtain ⟨ty2, v⟩ := t2
            simp only at hname hlen
            subst hname hlen
            have hsplit : (⟨TokenType.name, nm⟩ :: ⟨TokenType.length, v⟩ :: ts2 : List Token) =
                [⟨TokenType.name, nm⟩, ⟨TokenType.length, v⟩] ++ ts2 := rfl
            rw [hsplit] at h
            obtain ⟨s0, h0, h2⟩ := parseLoop_append _ _ _ _ h
            rw [parseLoop_name_length] at h0
            simp only [Except.ok.injEq] at h0
            subst h0
            have hl2 : lengthsFollowNames false ts2 = true := by
              simpa [lengthsFollowNames] using hl
            simp only [List.length_cons] at hn
            rw [ih ts2.length (by omega) ts2 _ s1 rfl hl2 h2]
            simp [createdNodes, lengthWritten, writtenDistance]
          · simp only [parseLoop] at h
            cases hst : step s t with
            | error e => simp [hst] at h
            | ok s0 =>
              simp only [hst] at h
              have hl2 : lengthsFollowNames false (t2 :: ts2) = true := by
                simp only [lengthsFollowNames, Bool.and_eq_true, Bool.or_eq_true, bne_iff_ne,
                  ne_eq] at hl ⊢
                exact ⟨Or.inl hlen, hl.2.2⟩
              simp only [List.length_cons] at hn
              rw [ih (ts2.length + 1) (by omega) (t2 :: ts2) s0 s1 rfl hl2 h,
                step_labels (by rw [hname]; decide) hst]
              simp [createdNodes, hname, lengthWritten, hlen, writtenDistance]
      · have hnl : t.type ≠ TokenType.length := by
          intro hlen
          simp [lengthsFollowNames, hlen] at hl
        simp only [parseLoop] at h
        cases hst : step s t with
        | error e => simp [hst] at h
        | ok s0 =>
          simp only [hst] at h
          have hl2 : lengthsFollowNames false ts = true := by
            simp only [lengthsFollowNames, Bool.and_eq_true] at hl
            have : (t.type == TokenType.name) = false := by simpa using hname
            rw [this] at hl
            exact hl.2
          simp only [List.length_cons] at hn
          rw [ih ts.length (by omega) ts s0 s1 rfl hl2 h, step_labels hnl hst]
          obtain ⟨ty, v⟩ := t
          cases ty <;> simp_all [createdNodes, writtenDistance]

theorem allSome_mem {α : Type} (l : List (Option α)) (ds : List α) (h : allSome l = some ds) :
    ∀ d ∈ ds, some d ∈ l := by
  induction l generalizing ds with
  | nil =>
    simp only [allSome, Option.some.injEq] at h
    subst h; simp
  | cons a l ih =>
    cases a with
    | none => simp [allSome] at h
    | some a =>
      simp only [allSome] at h
      cases hl : allSome l with
      | none => simp [hl] at h
      | some as =>
        simp only [hl, Option.some.injEq] at h
        subst h
        intro d hd
        simp only [List.mem_cons] at hd
        rcases hd with rfl | hd
        · simp
        · exact List.mem_cons_of_mem _ (ih as hl d hd)

/-- Every node of an unfolded tree carries the name and the distance of an
object of the heap. -/
theorem toNode_labels (h : Heap) (fuel : Nat) :
    ∀ (r : Nat) (n : Node), Heap.toNode h fuel r = some n →
      ∀ m ∈ n.subtree, ∃ o ∈ h, m.name = o.name ∧ m.distanceToParent = o.distanceToParent := by
  induction fuel with
  | zero => intro r n hn; simp [Heap.toNode] at hn
  | succ fuel ih =>
    intro r n hn m hm
    simp only [Heap.toNode] at hn
    cases hget : h[r]? with
    | none => simp [hget] at hn
    | some o =>
      simp only [hget] at hn
      cases hds : allSome (o.descendents.map (Heap.toNode h fuel)) with
      | none => simp [hds] at hn
      | some ds =>
        simp only [hds, Option.some.injEq] at hn
        subst hn
        simp only [Node.subtree, List.mem_cons] at hm
        rcases hm with rfl | hm
        · exact ⟨o, List.getElem?_mem hget, rfl, rfl⟩
        · obtain ⟨d, hd, hmd⟩ := Node.mem_subtreeList.1 hm
          have := allSome_mem _ _ hds d hd
          simp only [List.mem_map] at this
          obtain ⟨c, _, hc⟩ := this
          exact ih c d hc m hmd

theorem allSome_length {α : Type} (l : List (Option α)) (ds : List α)
    (h : allSome l = some ds) : ds.length = l.length := by
  induction l generalizing ds with
  | nil =>
    simp only [allSome, Option.some.injEq] at h
    subst h; rfl
  | cons a l ih =>
    cases a with
    | none => simp [allSome] at h
    | some a =>
      simp only [allSome] at h
      cases hl : allSome l with
      | none => simp [hl] at h
      | some as =>
        simp only [hl, Option.some.injEq] at h
        subst h
        simp [ih as hl]

/-! ## The end of parsing -/

theorem parse_leading_comma (v : String) (ts : List Token) :
    parse (⟨TokenType.comma, v⟩ :: ts) = Except.error JSError.typeError := by
  simp [parse, parseLoop, step]

theorem tokenize_head_ne_length (newick : String) (t : Token) (ts : List Token)
    (h : tokenize newick = t :: ts) : t.type ≠ TokenType.length := by
  have hl : lengthsFollowNames false (tokenize newick) = true :=
    tokenizeLoop_lengthsFollowNames _ _ rfl
  rw [h] at hl
  intro hlen
  simp [lengthsFollowNames, hlen] at hl

/-- With every case of the `switch` in a block of its own, the stack is not
checked at the end of the input: whenever the loop of the parser ends without
an exception, `parseNewick` returns a network; its root is the bottom entry
`stack[0]` of the stack, however many entries there are, and is `undefined`
when the stack is empty. -/
theorem parseNewick_returns_stack_bottom (newick : String) (s : ParseState)
    (h : parseLoop ⟨[], []⟩ (tokenize newick) = Except.ok s) :
    (s.stack = [] → parseNewick newick = Except.ok (PhylogeneticNetwork.new none)) ∧
    ∀ r, s.stack.getLast? = some r →
      ∃ o root, s.heap[r]? = some o ∧ Heap.toNode s.heap s.heap.length r = some root ∧
        root.name = o.name ∧ root.distanceToParent = o.distanceToParent ∧
        root.descendents.length = o.descendents.length ∧
        parseNewick newick = Except.ok (PhylogeneticNetwork.new (some root)) := by
  constructor
  · intro hs
    simp [parseNewick, parse, h, hs]
  · intro r hlast
    obtain ⟨hstack, rank, hr⟩ := parseLoop_WF _ _ _ WF_init h
    have hrlt : r < s.heap.length := hstack r (List.mem_of_getLast?_eq_some hlast)
    have hget : s.heap[r]? = some s.heap[r] := by simp [hrlt]
    obtain ⟨n, hn⟩ := toNode_some hr s.heap.length r hrlt (hr r _ hget).1
    refine ⟨s.heap[r], n, hget, hn, ?_, ?_, ?_, ?_⟩
    · cases hl : s.heap.length with
      | zero => omega
      | succ k =>
        rw [hl] at hn
        simp only [Heap.toNode, hget] at hn
        split at hn
        · simp only [Option.some.injEq] at hn
          subst hn; rfl
        · cases hn
    · cases hl : s.heap.length with
      | zero => omega
      | succ k =>
        rw [hl] at hn
        simp only [Heap.toNode, hget] at hn
        split at hn
        · simp only [Option.some.injEq] at hn
          subst hn; rfl
        · cases hn
    · cases hl : s.heap.length with
      | zero => omega
      | succ k =>
        rw [hl] at hn
        simp only [Heap.toNode, hget] at hn
        split at hn
        · rename_i ds hds
          simp only [Option.some.injEq] at hn
          subst hn
          simp only [Node.descendents]
          have := allSome_length _ _ hds
          simpa using this
        · cases hn
    · simp only [parseNewick, parse, h, hlast, hn]

/-- With every case of the `switch` in a block of its own: every node of a
tree that `parseNewick` returns stands for a token of the input and has the
name of that token; its `distanceToParent` is what `parseFloat` gives for the
length token right after its name, and `undefined` when no length was written
for it. -/
theorem parseNewick_missing_length_undefined (newick : String) (net : PhylogeneticNetwork)
    (root : Node) (h : parseNewick newick = Except.ok net) (hroot : net.root = some root) :
    ∀ m ∈ root.subtree, ∃ p ∈ createdNodes (tokenize newick),
      m.name = p.1 ∧ m.distanceToParent = writtenDistance p.2 ∧
      (p.2 = none → m.distanceToParent = Val.undefined) := by
  intro m hm
  unfold parseNewick at h
  simp only at h
  cases hp : parse (tokenize newick) with
  | error e => simp [hp] at h
  | ok q =>
    obtain ⟨hp1, r⟩ := q
    cases r with
    | none =>
      simp only [hp, Except.ok.injEq] at h
      subst h
      cases hroot
    | some r =>
      simp only [hp] at h
      cases hn : Heap.toNode hp1 hp1.length r with
      | none => simp [hn] at h
      | some n =>
        simp only [hn, Except.ok.injEq] at h
        subst h
        simp only [PhylogeneticNetwork.new, Option.some.injEq] at hroot
        subst hroot
        obtain ⟨o, ho, hname, hdist⟩ := toNode_labels _ _ _ _ hn m hm
        unfold parse at hp
        cases hl : parseLoop ⟨[], []⟩ (tokenize newick) with
        | error e => simp [hl] at hp
        | ok s =>
          simp only [hl, Except.ok.injEq, Prod.mk.injEq] at hp
          obtain ⟨rfl, _⟩ := hp
          have hlab := parseLoop_labels _ (tokenize newick) ⟨[], []⟩ s rfl
            (tokenizeLoop_lengthsFollowNames _ _ rfl) hl
          simp only [List.map_nil, List.nil_append] at hlab
          have hmem : (o.name, o.distanceToParent) ∈
              (createdNodes (tokenize newick)).map (fun p => (p.1, writtenDistance p.2)) := by
            rw [← hlab]
            exact List.mem_map.2 ⟨o, ho, rfl⟩
          obtain ⟨p, hp, hpeq⟩ := List.mem_map.1 hmem
          simp only [Prod.mk.injEq] at hpeq
          refine ⟨p, hp, by rw [hname, hpeq.1], by rw [hdist, hpeq.2], ?_⟩
          intro hnone
          rw [hdist, ← hpeq.2, hnone]
          rfl

/-- With every case of the `switch` in a block of its own: `parseNewick` fails
exactly when the first token is an opening parenthesis or a comma, and then
with the `TypeError` of a missing stack entry.  Without tokens it returns a
network without root.  Once the first token has been processed, the stack is
not empty after any further run of tokens, and no step fails. -/
theorem parseNewick_fails_iff_leading_open_or_comma (newick : String) :
    ((∃ e, parseNewick newick = Except.error e) ↔
      ∃ v ts, tokenize newick = ⟨TokenType.opening, v⟩ :: ts ∨
        tokenize newick = ⟨TokenType.comma, v⟩ :: ts) ∧
    (∀ e, parseNewick newick = Except.error e → e = JSError.typeError) ∧
    (tokenize newick = [] → parseNewick newick = Except.ok (PhylogeneticNetwork.new none)) ∧
    (∀ t s0, step ⟨[], []⟩ t = Except.ok s0 →
      s0.stack ≠ [] ∧ ∀ ts, ∃ s1, parseLoop s0 ts = Except.ok s1 ∧ s1.stack ≠ []) := by
  have hfail : ∀ v ts, tokenize newick = ⟨TokenType.opening, v⟩ :: ts ∨
      tokenize newick = ⟨TokenType.comma, v⟩ :: ts →
      parseNewick newick = Except.error JSError.typeError := by
    intro v ts h
    rcases h with h | h
    · simp [parseNewick, h, parse_leading_open]
    · simp [parseNewick, h, parse_leading_comma]
  have hok : (¬ ∃ v ts, tokenize newick = ⟨TokenType.opening, v⟩ :: ts ∨
      tokenize newick = ⟨TokenType.comma, v⟩ :: ts) →
      ∃ net, parseNewick newick = Except.ok net := by
    intro hno
    cases htok : tokenize newick with
    | nil => exact ⟨PhylogeneticNetwork.new none, by simp [parseNewick, htok, parse, parseLoop]⟩
    | cons t ts =>
      have hnl := tokenize_head_ne_length newick t ts htok
      obtain ⟨ty, v⟩ := t
      cases ty with
      | name =>
        obtain ⟨root, hr⟩ := parseNewick_of_leading_name_or_close newick _ ts htok (Or.inl rfl)
        exact ⟨_, hr⟩
      | close =>
        obtain ⟨root, hr⟩ := parseNewick_of_leading_name_or_close newick _ ts htok (Or.inr rfl)
        exact ⟨_, hr⟩
      | length => exact absurd rfl hnl
      | opening => exact absurd ⟨v, ts, Or.inl htok⟩ hno
      | comma => exact absurd ⟨v, ts, Or.inr htok⟩ hno
  refine ⟨⟨?_, ?_⟩, ?_, ?_, ?_⟩
  · rintro ⟨e, he⟩
    by_contra hno
    obtain ⟨net, hnet⟩ := hok hno
    rw [hnet] at he
    cases he
  · rintro ⟨v, ts, h⟩
    exact ⟨_, hfail v ts h⟩
  · intro e he
    cases e with
    | typeError => rfl
    | syntaxError =>
      exfalso
      unfold parseNewick at he
      simp only at he
      cases hp : parse (tokenize newick) with
      | error e1 =>
        rw [hp] at he
        simp only [Except.error.injEq] at he
        unfold parse at hp
        cases hl : parseLoop ⟨[], []⟩ (tokenize newick) with
        | ok s0 => simp [hl] at hp
        | error e2 =>
          simp only [hl, Except.error.injEq] at hp
          have := parseLoop_error _ _ _ hl
          rw [this] at hp
          rw [← hp] at he
          cases he
      | ok q =>
        obtain ⟨h1, r⟩ := q
        rw [hp] at he
        cases r with
        | none => cases he
        | some r =>
          simp only at he
          split at he <;> cases he
    | cyclic => exact absurd he (parseNewick_ne_cyclic newick)
  · intro htok
    simp [parseNewick, htok, parse, parseLoop]
  · intro t s0 hstep
    have hne : s0.stack ≠ [] := by
      obtain ⟨ty, v⟩ := t
      cases ty <;> simp [step] at hstep <;> (subst hstep; simp)
    refine ⟨hne, fun ts => ?_⟩
    obtain ⟨s1, h1, _, hne1⟩ := parseLoop_of_stack_ne_nil ts s0 (step_WF WF_init hstep) hne
    exact ⟨s1, h1, hne1⟩

/-! ## The name index -/

theorem NameMap.get_set_other {α : Type} (m : NameMap α) (k k1 : Option String) (v : α)
    (hk : k1 ≠ k) : NameMap.get (NameMap.set m k v) k1 = NameMap.get m k1 := by
  induction m with
  | nil => simp [NameMap.set, NameMap.get, Ne.symm hk]
  | cons e m ih =>
    obtain ⟨k0, v0⟩ := e
    by_cases h0 : k0 = k
    · subst h0
      simp [NameMap.set, NameMap.get, Ne.symm hk]
    · by_cases h1 : k0 = k1
      · subst h1
        simp [NameMap.set, NameMap.get, h0]
      · simp [NameMap.set, NameMap.get, h0, h1, ih]

/-- With every case of the `switch` in a block of its own: `parseNewick`
builds the network with `new PhylogeneticNetwork(root)` and never calls
`addNode`, so the index `nodes` of a returned network is empty. -/
theorem parseNewick_index_empty (newick : String) (net : PhylogeneticNetwork)
    (h : parseNewick newick = Except.ok net) :
    net.nodes = [] ∧ ∀ k, NameMap.get net.nodes k = none := by
  have hn : net.nodes = [] := by
    unfold parseNewick at h
    simp only at h
    split at h
    · cases h
    · simp only [Except.ok.injEq] at h
      subst h; rfl
    · split at h
      · simp only [Except.ok.injEq] at h
        subst h; rfl
      · cases h
  exact ⟨hn, fun k => by rw [hn]; rfl⟩

/-- Claim C15: after `addNode(n)` the index maps the name of `n` to `n`, every
other name to what it mapped to before, and the root is unchanged; a second
`addNode` under the same name replaces the first. -/
theorem addNode_last_write_wins (net : PhylogeneticNetwork) (n : Node) :
    NameMap.get (net.addNode n).nodes n.name = some n ∧
    (∀ k, k ≠ n.name → NameMap.get (net.addNode n).nodes k = NameMap.get net.nodes k) ∧
    (net.addNode n).root = net.root ∧
    ∀ b : Node, b.name = n.name →
      NameMap.get ((net.addNode n).addNode b).nodes n.name = some b := by
  refine ⟨NameMap.get_set_self _ _ _, fun k hk => NameMap.get_set_other _ _ _ _ hk, rfl, ?_⟩
  intro b hb
  rw [← hb]
  exact NameMap.get_set_self _ _ _

theorem addNode_last_write_wins_witness :
    NameMap.get ((PhylogeneticNetwork.new none).addNode
        (Node.mk (some "A") (Val.num 1) [])).nodes (Node.mk (some "A") (Val.num 1) []).name =
      some (Node.mk (some "A") (Val.num 1) []) ∧
    (∀ k, k ≠ (Node.mk (some "A") (Val.num 1) []).name →
      NameMap.get ((PhylogeneticNetwork.new none).addNode
        (Node.mk (some "A") (Val.num 1) [])).nodes k =
        NameMap.get (PhylogeneticNetwork.new none).nodes k) ∧
    ((PhylogeneticNetwork.new none).addNode (Node.mk (some "A") (Val.num 1) [])).root =
      (PhylogeneticNetwork.new none).root ∧
    ∀ b : Node, b.name = (Node.mk (some "A") (Val.num 1) []).name →
      NameMap.get (((PhylogeneticNetwork.new none).addNode
        (Node.mk (some "A") (Val.num 1) [])).addNode b).nodes
        (Node.mk (some "A") (Val.num 1) []).name = some b :=
  addNode_last_write_wins (PhylogeneticNetwork.new none) (Node.mk (some "A") (Val.num 1) [])

/-! ## The comma step -/

/-- Claim C16 as the code has it: on a stack whose top is an object of the
heap, the comma step creates one new unnamed node without descendents,
appends it to the descendents of the node on top of the stack, and pushes it;
the stack below keeps its nodes and order, and every other object is left
as it was. -/
theorem comma_step_adds_sibling (heap : Heap) (top : Nat) (rest : List Nat) (v : String)
    (htop : top < heap.length) :
    ∃ s1, step ⟨heap, top :: rest⟩ ⟨TokenType.comma, v⟩ = Except.ok s1 ∧
      s1.stack = heap.length :: top :: rest ∧
      s1.heap.length = heap.length + 1 ∧
      s1.heap[heap.length]? = some ⟨none, Val.undefined, [], some top⟩ ∧
      (∀ o, heap[top]? = some o →
        s1.heap[top]? = some { o with descendents := o.descendents ++ [heap.length] }) ∧
      ∀ r, r < heap.length → r ≠ top → s1.heap[r]? = heap[r]? := by
  refine ⟨_, rfl, rfl, ?_, ?_, ?_, ?_⟩
  · simp [heap_length_update]
  · rw [heap_getElem_update, if_neg (by omega)]
    simp [Obj.new]
  · intro o ho
    rw [heap_getElem_update, if_pos rfl, List.getElem?_append_left htop, ho]
    rfl
  · intro r hr hne
    rw [heap_getElem_update, if_neg hne, List.getElem?_append_left hr]

theorem comma_step_adds_sibling_witness :
    0 < [Obj.new (some "A")].length ∧
    ∃ s1, step ⟨[Obj.new (some "A")], 0 :: []⟩ ⟨TokenType.comma, ","⟩ = Except.ok s1 ∧
      s1.stack = [Obj.new (some "A")].length :: 0 :: [] ∧
      s1.heap.length = [Obj.new (some "A")].length + 1 ∧
      s1.heap[[Obj.new (some "A")].length]? = some ⟨none, Val.undefined, [], some 0⟩ ∧
      (∀ o, [Obj.new (some "A")][0]? = some o →
        s1.heap[0]? = some { o with
          descendents := o.descendents ++ [[Obj.new (some "A")].length] }) ∧
      ∀ r, r < [Obj.new (some "A")].length → r ≠ 0 → s1.heap[r]? = [Obj.new (some "A")][r]? :=
  ⟨by decide, comma_step_adds_sibling _ 0 [] "," (by decide)⟩

/-! ## The coordinate map across layouts -/

/-- Claim C17, the code against the claim: two diagrams of the same size lay
out the same one-node network `B`; the one whose map already held an entry
for `A` still holds it afterwards, so the two maps differ. -/
theorem computePositions_keeps_old_entries :
    NetworkDiagram.computePositions ⟨800, 600, []⟩
        (PhylogeneticNetwork.new (some (Node.mk (some "B") Val.undefined []))) =
      Except.ok ⟨800, 600, [(some "B", ⟨0, 300⟩)]⟩ ∧
    NetworkDiagram.computePositions ⟨800, 600, [(some "A", ⟨0, 300⟩)]⟩
        (PhylogeneticNetwork.new (some (Node.mk (some "B") Val.undefined []))) =
      Except.ok ⟨800, 600, [(some "A", ⟨0, 300⟩), (some "B", ⟨0, 300⟩)]⟩ := by
  have h600 : (600 : ℚ) / 2 = 300 := by norm_num
  constructor <;>
    simp [PhylogeneticNetwork.new, computePositions_eq, NameMap.set, Node.name, h600]

/-- What `computePositions` does to the map: it sets the entry of the root and
leaves every entry stored under another name as it was. -/
theorem computePositions_keeps_other_names (d : NetworkDiagram) (network : PhylogeneticNetwork)
    (root : Node) (h : network.root = some root) :
    ∃ d1, NetworkDiagram.computePositions d network = Except.ok d1 ∧
      NameMap.get d1.nodePositions root.name = some ⟨0, d.height / 2⟩ ∧
      ∀ k, k ≠ root.name → NameMap.get d1.nodePositions k = NameMap.get d.nodePositions k := by
  obtain ⟨r, nodes⟩ := network
  simp only at h
  subst h
  exact ⟨_, computePositions_eq d root nodes, NameMap.get_set_self _ _ _,
    fun k hk => NameMap.get_set_other _ _ _ _ hk⟩

/-! ## Calls on the file as shipped -/

theorem loadFile_syntaxError : loadFile = Except.error JSError.syntaxError :=
  rfl

theorem callParseNewick_syntaxError (newick : String) :
    callParseNewick newick = Except.error JSError.syntaxError := by
  simp only [callParseNewick, loadFile_syntaxError]

/-- A failure of a call is the `SyntaxError` of the load on the file as
shipped, and a `TypeError` with every case of the `switch` in a block of its
own. -/
theorem failure_kinds (newick : String) (e : JSError)
    (h : callParseNewick newick = Except.error e ∨ parseNewick newick = Except.error e) :
    e = JSError.syntaxError ∨ e = JSError.typeError := by
  rcases h with h | h
  · rw [callParseNewick_syntaxError] at h
    simp only [Except.error.injEq] at h
    exact Or.inl h.symm
  · exact Or.inr ((parseNewick_fails_iff_leading_open_or_comma newick).2.1 e h)

/-- Claim C3, the code at the claim's inputs: for a name of letters, digits
and underscores followed by ";", loading the file as shipped and calling
`parseNewick` ends with the `SyntaxError` of the redeclared `parent`, and no
network is returned.  With every case of the `switch` in a block of its own
the call returns what the claim says: a root of that name without
descendents, of `computeSize` 1. -/
theorem callParseNewick_single_name_raises (n : String) (hne : n.data ≠ [])
    (hw : ∀ c ∈ n.data, isWordChar c = true) :
    callParseNewick (n ++ ";") = Except.error JSError.syntaxError ∧
    firstRedeclared (switchDeclarations.map Prod.fst) = some "parent" ∧
    ∃ root, parseNewick (n ++ ";") = Except.ok (PhylogeneticNetwork.new (some root)) ∧
      root.name = some n ∧ root.descendents = [] ∧ root.computeSize = 1 :=
  ⟨callParseNewick_syntaxError _, rfl, parseNewick_single_name n hne hw⟩

theorem callParseNewick_single_name_raises_witness :
    "A".data ≠ [] ∧ (∀ c ∈ "A".data, isWordChar c = true) ∧
    callParseNewick ("A" ++ ";") = Except.error JSError.syntaxError ∧
    firstRedeclared (switchDeclarations.map Prod.fst) = some "parent" ∧
    ∃ root, parseNewick ("A" ++ ";") = Except.ok (PhylogeneticNetwork.new (some root)) ∧
      root.name = some "A" ∧ root.descendents = [] ∧ root.computeSize = 1 :=
  ⟨by decide, by decide, callParseNewick_single_name_raises "A" (by decide) (by decide)⟩

/-- Claim C4, the code against the claim: "(A,B" and "(A,B))" have unbalanced
parentheses.  On the file as shipped the call ends with the `SyntaxError` of
the load, and with every case of the `switch` in a block of its own with the
`TypeError` of the first token; neither is an `UnbalancedParenthesesError`. -/
theorem unbalanced_input_raises_another_error :
    parenBalanced "(A,B" = false ∧
    callParseNewick "(A,B" = Except.error JSError.syntaxError ∧
    parseNewick "(A,B" = Except.error JSError.typeError ∧
    parenBalanced "(A,B))" = false ∧
    callParseNewick "(A,B))" = Except.error JSError.syntaxError ∧
    parseNewick "(A,B))" = Except.error JSError.typeError ∧
    JSError.syntaxError.name ≠ "UnbalancedParenthesesError" ∧
    JSError.typeError.name ≠ "UnbalancedParenthesesError" :=
  ⟨rfl, rfl, rfl, rfl, rfl, rfl, by decide, by decide⟩

/-- Claim C4 as the code has it: there is no `UnbalancedParenthesesError`.
Whenever a call of `parseNewick` fails, on the file as shipped or with every
case of the `switch` in a block of its own, the error is one the JavaScript
engine raises, a `SyntaxError` or a `TypeError`. -/
theorem parseNewick_raises_no_unbalanced_error (newick : String) (e : JSError)
    (h : callParseNewick newick = Except.error e ∨ parseNewick newick = Except.error e) :
    (e = JSError.syntaxError ∨ e = JSError.typeError) ∧
    e.name ≠ "UnbalancedParenthesesError" := by
  refine ⟨failure_kinds newick e h, ?_⟩
  rcases failure_kinds newick e h with rfl | rfl <;> decide

theorem parseNewick_raises_no_unbalanced_error_witness :
    (callParseNewick "(A,B" = Except.error JSError.syntaxError ∨
      parseNewick "(A,B" = Except.error JSError.syntaxError) ∧
    (JSError.syntaxError = JSError.syntaxError ∨ JSError.syntaxError = JSError.typeError) ∧
    JSError.syntaxError.name ≠ "UnbalancedParenthesesError" :=
  ⟨Or.inl rfl, parseNewick_raises_no_unbalanced_error "(A,B" JSError.syntaxError (Or.inl rfl)⟩

/-- Claim C11, the code against the claim: "A$" and "A B" hold a character
that is part of no token.  The tokenizer gives the tokens around it and
raises nothing; the call ends with the `SyntaxError` of the load on the file
as shipped, which is no `LexError`, and returns the node `A` as root with
every case of the `switch` in a block of its own. -/
theorem stray_character_raises_no_lex_error :
    tokenize "A$" = [⟨TokenType.name, "A"⟩] ∧
    tokenize "A B" = [⟨TokenType.name, "A"⟩, ⟨TokenType.name, "B"⟩] ∧
    callParseNewick "A$" = Except.error JSError.syntaxError ∧
    callParseNewick "A B" = Except.error JSError.syntaxError ∧
    JSError.syntaxError.name ≠ "LexError" ∧
    parseNewick "A$" =
      Except.ok (PhylogeneticNetwork.new (some (Node.mk (some "A") Val.undefined []))) ∧
    parseNewick "A B" =
      Except.ok (PhylogeneticNetwork.new (some (Node.mk (some "A") Val.undefined []))) :=
  ⟨rfl, rfl, rfl, rfl, by decide, rfl, rfl⟩

/-- Claim C11 as the code has it: there is no `LexError`.  The tokenizer
passes over a character that the pattern cannot match: the tokens of the
input are those of the part before the character followed by those of the
part after it.  A call that fails never fails with a `LexError`. -/
theorem tokenize_passes_over_unmatched (pre post : String) (c : Char)
    (hc : neverMatched c = true) :
    tokenize (pre ++ String.singleton c ++ post) = tokenize pre ++ tokenize post ∧
    ∀ e, (callParseNewick (pre ++ String.singleton c ++ post) = Except.error e ∨
        parseNewick (pre ++ String.singleton c ++ post) = Except.error e) →
      e.name ≠ "LexError" := by
  refine ⟨tokenize_append_skipped pre post c hc, ?_⟩
  intro e h
  rcases failure_kinds _ e h with rfl | rfl <;> decide

theorem tokenize_passes_over_unmatched_witness :
    neverMatched '$' = true ∧
    tokenize ("A" ++ String.singleton '$' ++ "B") = tokenize "A" ++ tokenize "B" ∧
    ∀ e, (callParseNewick ("A" ++ String.singleton '$' ++ "B") = Except.error e ∨
        parseNewick ("A" ++ String.singleton '$' ++ "B") = Except.error e) →
      e.name ≠ "LexError" :=
  ⟨by decide, tokenize_passes_over_unmatched "A" "B" '$' (by decide)⟩

/-- Claim C12, the code against the claim: the tokens of the empty string
leave no node on the stack and those of "A B" leave two.  On the file as
shipped both calls end with the `SyntaxError` of the load, which is no
`MalformedTreeError`; with every case of the `switch` in a block of its own
both return a network. -/
theorem odd_stack_raises_no_malformed_tree_error :
    callParseNewick "" = Except.error JSError.syntaxError ∧
    callParseNewick "A B" = Except.error JSError.syntaxError ∧
    JSError.syntaxError.name ≠ "MalformedTreeError" ∧
    parseLoop ⟨[], []⟩ (tokenize "") = Except.ok ⟨[], []⟩ ∧
    parseNewick "" = Except.ok (PhylogeneticNetwork.new none) ∧
    parseLoop ⟨[], []⟩ (tokenize "A B") =
      Except.ok ⟨[Obj.new (some "A"), Obj.new (some "B")], [1, 0]⟩ ∧
    parseNewick "A B" =
      Except.ok (PhylogeneticNetwork.new (some (Node.mk (some "A") Val.undefined []))) :=
  ⟨rfl, rfl, by decide, rfl, rfl, rfl, rfl⟩

/-- Claim C12 as the code has it: there is no `MalformedTreeError` and no
check of the stack at the end of the input.  Whenever a call of `parseNewick`
fails, on the file as shipped or with every case of the `switch` in a block
of its own, the error is a `SyntaxError` or a `TypeError`. -/
theorem parseNewick_raises_no_malformed_tree_error (newick : String) (e : JSError)
    (h : callParseNewick newick = Except.error e ∨ parseNewick newick = Except.error e) :
    e.name ≠ "MalformedTreeError" ∧
    (e = JSError.syntaxError ∨ e = JSError.typeError) := by
  refine ⟨?_, failure_kinds newick e h⟩
  rcases failure_kinds newick e h with rfl | rfl <;> decide

theorem parseNewick_raises_no_malformed_tree_error_witness :
    (callParseNewick "" = Except.error JSError.syntaxError ∨
      parseNewick "" = Except.error JSError.syntaxError) ∧
    JSError.syntaxError.name ≠ "MalformedTreeError" ∧
    (JSError.syntaxError = JSError.syntaxError ∨ JSError.syntaxError = JSError.typeError) :=
  ⟨Or.inl rfl, parseNewick_raises_no_malformed_tree_error "" JSError.syntaxError (Or.inl rfl)⟩

/-- Claim C13, the code against the claim: on the file as shipped
`parseNewick("A;")` returns no root at all.  The node that the name step
creates for `A` has `distanceToParent` `undefined`, which is not the number
0, and that node is the root returned with every case of the `switch` in a
block of its own. -/
theorem unwritten_length_is_not_zero :
    callParseNewick "A;" = Except.error JSError.syntaxError ∧
    step ⟨[], []⟩ ⟨TokenType.name, "A"⟩ =
      Except.ok ⟨[⟨some "A", Val.undefined, [], none⟩], [0]⟩ ∧
    Val.undefined ≠ Val.num 0 ∧
    parseNewick "A;" =
      Except.ok (PhylogeneticNetwork.new (some (Node.mk (some "A") Val.undefined []))) :=
  ⟨rfl, rfl, by decide, rfl⟩

/-- Claim C13 as the code has it: the constructor sets no default.  A node
made by `new Node(name)` or `new Node()` has `distanceToParent` `undefined`,
not 0, and so has the node that the name step pushes; the property holds a
number only after a length step has written to that node what `parseFloat`
gives for the length token, 1.5 for "1.5". -/
theorem created_node_has_no_distance (s : ParseState) (n v : String) :
    (∀ name, (Obj.new name).distanceToParent = Val.undefined) ∧
    Val.undefined ≠ Val.num 0 ∧
    step s ⟨TokenType.name, n⟩ =
      Except.ok ⟨s.heap ++ [⟨some n, Val.undefined, [], none⟩], s.heap.length :: s.stack⟩ ∧
    parseLoop s [⟨TokenType.name, n⟩, ⟨TokenType.length, v⟩] =
      Except.ok ⟨s.heap ++ [⟨some n, parseFloat v, [], none⟩], s.heap.length :: s.stack⟩ ∧
    parseFloat "1.5" = Val.num (3 / 2) ∧
    parseLoop ⟨[], []⟩ (tokenize "A:1.5") =
      Except.ok ⟨[⟨some "A", Val.num (3 / 2), [], none⟩], [0]⟩ := by
  refine ⟨fun _ => rfl, by decide, rfl, parseLoop_name_length s n v, ?_, ?_⟩
  · simp [parseFloat]
    norm_num
  · have ht : tokenize "A:1.5" = [⟨TokenType.name, "A"⟩, ⟨TokenType.length, "1.5"⟩] := rfl
    rw [ht, parseLoop_name_length]
    simp [parseFloat]
    norm_num

/-- Claim C14, the code at the failing input: a network made by
`new PhylogeneticNetwork(root)`, as `parseNewick` makes it, has an empty
index, and nothing calls `addNode`.  After `computePositions` the root is
positioned under its name, and looking that name up in the index finds
nothing. -/
theorem index_misses_positioned_root (d : NetworkDiagram) (root : Node) :
    (PhylogeneticNetwork.new (some root)).nodes = [] ∧
    ∃ d1, NetworkDiagram.computePositions d (PhylogeneticNetwork.new (some root)) =
        Except.ok d1 ∧
      NameMap.get d1.nodePositions root.name = some ⟨0, d.height / 2⟩ ∧
      NameMap.get (PhylogeneticNetwork.new (some root)).nodes root.name = none :=
  ⟨rfl, _, computePositions_eq d root [], NameMap.get_set_self _ _ _, rfl⟩

/-- Claim C16, the code against the claim: were the comma a no-op, "A," would
be read like "A" and give the root `A` without descendents.  On the file as
shipped the call returns nothing; with every case of the `switch` in a block
of its own, the comma step turns the stack of one node into a stack of two,
adds a second object to the heap, and the root `A` has a descendent. -/
theorem comma_changes_the_tree :
    tokenize "A," = [⟨TokenType.name, "A"⟩, ⟨TokenType.comma, ","⟩] ∧
    callParseNewick "A," = Except.error JSError.syntaxError ∧
    step ⟨[Obj.new (some "A")], [0]⟩ ⟨TokenType.comma, ","⟩ =
      Except.ok ⟨[⟨some "A", Val.undefined, [1], none⟩, ⟨none, Val.undefined, [], some 0⟩],
        [1, 0]⟩ ∧
    parseNewick "A," =
      Except.ok (PhylogeneticNetwork.new
        (some (Node.mk (some "A") Val.undefined [Node.mk none Val.undefined []]))) :=
  ⟨rfl, rfl, rfl, rfl⟩

/-- Claim C17 as the code has it: `computePositions` does not empty the map
before it lays out the tree.  Every entry stored under a name that no node of
the laid-out tree has is still in the map after the call, so the map after
the call depends on the map before it. -/
theorem computePositions_keeps_foreign_entries (d : NetworkDiagram)
    (network : PhylogeneticNetwork) (root : Node) (h : network.root = some root) :
    ∃ d1, NetworkDiagram.computePositions d network = Except.ok d1 ∧
      ∀ k, (∀ m ∈ root.subtree, m.name ≠ k) →
        NameMap.get d1.nodePositions k = NameMap.get d.nodePositions k := by
  obtain ⟨d1, h1, _, h3⟩ := computePositions_keeps_other_names d network root h
  exact ⟨d1, h1, fun k hk => h3 k (fun hkr => hk root (Node.self_mem_subtree root) hkr.symm)⟩

theorem computePositions_keeps_foreign_entries_witness :
    (PhylogeneticNetwork.new (some (Node.mk (some "B") Val.undefined []))).root =
      some (Node.mk (some "B") Val.undefined []) ∧
    ∃ d1, NetworkDiagram.computePositions ⟨800, 600, [(some "A", ⟨0, 300⟩)]⟩
        (PhylogeneticNetwork.new (some (Node.mk (some "B") Val.undefined []))) = Except.ok d1 ∧
      ∀ k, (∀ m ∈ (Node.mk (some "B") Val.undefined []).subtree, m.name ≠ k) →
        NameMap.get d1.nodePositions k =
          NameMap.get (⟨800, 600, [(some "A", ⟨0, 300⟩)]⟩ : NetworkDiagram).nodePositions k :=
  ⟨rfl, computePositions_keeps_foreign_entries _ _ _ rfl⟩

/-- Claim C19, the code at the failing inputs: the first token of "A;" is a
name and "" has no token, so the claim has both calls return a network.  On
the file as shipped both fail, as the call fails for every input, with the
`SyntaxError` of the load. -/
theorem callParseNewick_raises_on_every_input (newick : String) :
    callParseNewick newick = Except.error JSError.syntaxError ∧
    tokenize "A;" = [⟨TokenType.name, "A"⟩] ∧
    callParseNewick "A;" = Except.error JSError.syntaxError ∧
    tokenize "" = [] ∧
    callParseNewick "" = Except.error JSError.syntaxError :=
  ⟨callParseNewick_syntaxError newick, rfl, rfl, rfl, rfl⟩

end PhyloNetworkViewer
